import Mathlib

set_option maxHeartbeats 1000000
set_option linter.unusedSectionVars false

/-!
Verification of the separate-chaining hash table in
src/leyk-csce221-assignment-unordered-map/src/UnorderedMap.h and of the
string hash functions in hash_functions.cpp.

Heap memory is modelled explicitly: every C++ HashNode lives at an integer
address inside an association-list heap, so pointer identity, chain
prepending, unlinking, `delete`, and dangling pointers are all representable.
An operation returns `none` exactly when the C++ run would dereference a
null or dangling pointer (undefined behaviour); `some` carries the completed
run's result.  Machine-integer wraparound is irrelevant for the node counter
in the claims considered, so `_size` is a `Nat`; the `size_t` arithmetic of
the polynomial hash, where wraparound is the point, is modelled with an
explicit modulus 2 ^ 64.
-/

/-- One C++ `HashNode`: the `next` pointer plus the stored entry
(`val.first` = `key`, `val.second` = `val`). -/
structure HashNode (K V : Type) where
  next : Option Nat
  key : K
  val : V
deriving DecidableEq

/-- The modelled heap: a finite map from addresses to nodes. -/
abbrev Heap (K V : Type) := List (Nat × HashNode K V)

/-- Dereference address `i` (`none` = dangling / freed). -/
def hget {K V : Type} (h : Heap K V) (i : Nat) : Option (HashNode K V) :=
  List.lookup i h

/-- `new HashNode(...)` at the fresh address `i`. -/
def hput {K V : Type} (h : Heap K V) (i : Nat) (nd : HashNode K V) : Heap K V :=
  (i, nd) :: h

/-- `delete`: the node at address `i` stops existing. -/
def hdel {K V : Type} (h : Heap K V) (i : Nat) : Heap K V :=
  h.filter (fun e => e.1 != i)

/-- In-place store through a node pointer (`currentNode->next = ...`). -/
def hset {K V : Type} (h : Heap K V) (i : Nat) (nd : HashNode K V) : Heap K V :=
  h.map (fun e => if e.1 = i then (i, nd) else e)

/-- `_range_hash(hash_code, bucket_count)` from UnorderedMap.h. -/
def range_hash (hash_code bucket_count : Nat) : Nat :=
  hash_code % bucket_count

/-- Trial-division primality test (executable). -/
def isPrimeB (n : Nat) : Bool :=
  decide (2 ≤ n) && (List.range n).all (fun d => decide (d < 2) || decide (n % d ≠ 0))

/-- Upward search for the first prime, fuelled. -/
def primeSearch : Nat → Nat → Nat
  | m, 0 => m
  | m, fuel+1 => if isPrimeB m then m else primeSearch (m+1) fuel

/-- Modelled from the spec: primes.h (`next_greater_prime`) is not present
under src/; the spec's Prime Sizer contract is "the smallest prime
`p ≥ max(requested, 1)`".  The upward search carries enough fuel that, by
Bertrand's postulate, it never runs out for any input. -/
def next_greater_prime (requested : Nat) : Nat :=
  primeSearch (max requested 1) (max requested 1 + 2)

/-- The C++ `UnorderedMap` object state.  `buckets` is `_buckets` (an array
of chain-head pointers), `head` is `_head`, `size` is `_size`, `hashF` is
`_hash`; `nextId` is the allocator's next fresh address.  The key-equality
predicate `_equal` is the default `std::equal_to`, i.e. decidable equality. -/
structure UnorderedMap (K V : Type) where
  bucket_count : Nat
  buckets : List (Option Nat)
  head : Option Nat
  size : Nat
  nextId : Nat
  heap : Heap K V
  hashF : K → Nat

namespace UnorderedMap

variable {K V : Type} [DecidableEq K]

/-- The constructor `UnorderedMap(bucket_count, hash, equal)`:
`_bucket_count = next_greater_prime(bucket_count)`, zeroed bucket array,
null `_head`, zero `_size`. -/
def mkMap (hashF : K → Nat) (bucket_count : Nat) : UnorderedMap K V :=
  { bucket_count := next_greater_prime bucket_count
    buckets := List.replicate (next_greater_prime bucket_count) none
    head := none
    size := 0
    nextId := 0
    heap := []
    hashF := hashF }

/-- `_bucket(key)` = `_range_hash(_hash(key), _bucket_count)`. -/
def bucketOf (m : UnorderedMap K V) (k : K) : Nat :=
  range_hash (m.hashF k) m.bucket_count

/-- Read `_buckets[b]`. -/
def bget (m : UnorderedMap K V) (b : Nat) : Option Nat :=
  m.buckets.getD b none

/-- First non-null pointer of a bucket-array segment: the scan loop
`for (currentIndex = i; ...)` of `basic_iterator::operator++`, and also how
the canonical head is characterised. -/
def firstLive : List (Option Nat) → Option Nat
  | [] => none
  | none :: rest => firstLive rest
  | some x :: _ => some x

/-- The chain walk of `_find(code, bucket, key)`: scan a chain for the first
node whose key compares equal.  `some r` is a completed run (`r` the found
pointer, or null when the walk ends at the chain's end); `none` is a
dangling dereference. -/
def findLoop (h : Heap K V) (k : K) : Option Nat → Nat → Option (Option Nat)
  | none, _ => some none
  | some _, 0 => none
  | some p, fuel+1 =>
    match hget h p with
    | none => none
    | some nd => if nd.key = k then some (some p) else findLoop h k nd.next fuel

/-- `_find(key)`: walk the chain of the key's bucket. -/
def findPtr (m : UnorderedMap K V) (k : K) : Option (Option Nat) :=
  findLoop m.heap k (m.bget (m.bucketOf k)) m.heap.length

/-- `basic_iterator::operator++` at a node with fields `nd`: follow `next`
when non-null, otherwise recompute the node's bucket from its key's hash and
scan the later buckets for the next non-empty chain. -/
def iterSucc (m : UnorderedMap K V) (nd : HashNode K V) : Option Nat :=
  match nd.next with
  | some q => some q
  | none => firstLive (m.buckets.drop (m.bucketOf nd.key + 1))

/-- `_insert_into_bucket(bucket, value)`: allocate a node, prepend it to the
chain of `bucket`, bump `_size`, then update `_head` when it is null or the
new bucket index is `≤` the head node's bucket index.  The head update
dereferences `_head`; a dangling `_head` faults. -/
def insert_into_bucket (m : UnorderedMap K V) (b : Nat) (k : K) (v : V) :
    Option (UnorderedMap K V × Nat) :=
  let bucketHead := m.bget b
  let newId := m.nextId
  let nd : HashNode K V :=
    match bucketHead with
    | none => { next := none, key := k, val := v }
    | some hd => { next := some hd, key := k, val := v }
  let heap1 := hput m.heap newId nd
  let m1 : UnorderedMap K V :=
    { m with heap := heap1
             buckets := m.buckets.set b (some newId)
             size := m.size + 1
             nextId := m.nextId + 1 }
  match m.head with
  | none => some ({ m1 with head := some newId }, newId)
  | some hId =>
    match hget heap1 hId with
    | none => none
    | some hnd =>
      if m.bucketOf k ≤ m.bucketOf hnd.key then
        some ({ m1 with head := some newId }, newId)
      else
        some (m1, newId)

/-- `insert(value_type&&)` (the rvalue overload): duplicate check via
`_find`, then `_insert_into_bucket`.  Returns the state, the node the
returned iterator denotes, and the `inserted` flag. -/
def insert_move (m : UnorderedMap K V) (k : K) (v : V) :
    Option (UnorderedMap K V × Nat × Bool) :=
  match m.findPtr k with
  | none => none
  | some (some dup) => some (m, dup, false)
  | some none =>
    (m.insert_into_bucket (m.bucketOf k) k v).map (fun r => (r.1, r.2, true))

/-- `insert(const value_type&)` (the copy overload): its body inlines the
same steps `_insert_into_bucket` performs. -/
def insert_copy (m : UnorderedMap K V) (k : K) (v : V) :
    Option (UnorderedMap K V × Nat × Bool) :=
  match m.findPtr k with
  | none => none
  | some (some dup) => some (m, dup, false)
  | some none =>
    let bucketHead := m.bget (m.bucketOf k)
    let newId := m.nextId
    let nd : HashNode K V :=
      match bucketHead with
      | none => { next := none, key := k, val := v }
      | some hd => { next := some hd, key := k, val := v }
    let heap1 := hput m.heap newId nd
    let m1 : UnorderedMap K V :=
      { m with heap := heap1
               buckets := m.buckets.set (m.bucketOf k) (some newId)
               size := m.size + 1
               nextId := m.nextId + 1 }
    match m.head with
    | none => some ({ m1 with head := some newId }, newId, true)
    | some hId =>
      match hget heap1 hId with
      | none => none
      | some hnd =>
        if m.bucketOf k ≤ m.bucketOf hnd.key then
          some ({ m1 with head := some newId }, newId, true)
        else
          some (m1, newId, true)

/-- `operator[](key)`: `_find`, and on a miss allocate a node holding
`(key, T{})`, prepend it to `_buckets[idx]`, bump `_size`, update `_head` by
the same rule as insertion.  Returns the node whose `val.second` the C++
reference denotes. -/
def indexOp [Inhabited V] (m : UnorderedMap K V) (k : K) :
    Option (UnorderedMap K V × Nat) :=
  match m.findPtr k with
  | none => none
  | some (some found) => some (m, found)
  | some none =>
    let idx := m.bucketOf k
    let newId := m.nextId
    let nd : HashNode K V := { next := m.bget idx, key := k, val := default }
    let heap1 := hput m.heap newId nd
    let m1 : UnorderedMap K V :=
      { m with heap := heap1
               buckets := m.buckets.set idx (some newId)
               size := m.size + 1
               nextId := m.nextId + 1 }
    match m.head with
    | none => some ({ m1 with head := some newId }, newId)
    | some hId =>
      match hget heap1 hId with
      | none => none
      | some hnd =>
        if m.bucketOf k ≤ m.bucketOf hnd.key then
          some ({ m1 with head := some newId }, newId)
        else
          some (m1, newId)

/-- The `while (currentNode->next != nullptr)` loop of `erase(const Key&)`:
walk a chain, and when the successor's key matches, splice it out
(`currentNode->next = eraseNode->next`) and `delete` it. -/
def eraseChainLoop (k : K) : Heap K V → Nat → Nat → Option (Heap K V × Bool)
  | _, _, 0 => none
  | h, cur, fuel+1 =>
    match hget h cur with
    | none => none
    | some cnd =>
      match cnd.next with
      | none => some (h, false)
      | some nId =>
        match hget h nId with
        | none => none
        | some nnd =>
          if nnd.key = k then
            some (hdel (hset h cur { cnd with next := nnd.next }) nId, true)
          else
            eraseChainLoop k h nId fuel

/-- `erase(const Key&)`.  NOTE: the C++ reads `currentNode->val.first` before
any null check, so a key whose bucket has an empty chain is a null
dereference (`none`), not a `return 0`. -/
def erase_key (m : UnorderedMap K V) (k : K) : Option (UnorderedMap K V × Nat) :=
  let bucketIndex := m.bucketOf k
  match m.bget bucketIndex with
  | none => none
  | some cur0 =>
    match hget m.heap cur0 with
    | none => none
    | some nd0 =>
      if nd0.key = k then
        let it := m.iterSucc nd0
        some ({ m with buckets := m.buckets.set bucketIndex nd0.next
                       head := if m.head = some cur0 then it else m.head
                       heap := hdel m.heap cur0
                       size := m.size - 1 }, 1)
      else
        (eraseChainLoop k m.heap cur0 m.heap.length).map
          (fun r =>
            ({ m with heap := r.1, size := if r.2 then m.size - 1 else m.size },
             if r.2 then 1 else 0))

/-- The predecessor scan of `erase(iterator)`: find the node whose `next` is
the erased node and splice across it (`ernext` is `eraseNode->next`). -/
def spliceLoop (eraseId : Nat) (ernext : Option Nat) :
    Heap K V → Option Nat → Nat → Option (Heap K V × Bool)
  | h, none, _ => some (h, false)
  | _, some _, 0 => none
  | h, some cur, fuel+1 =>
    match hget h cur with
    | none => none
    | some cnd =>
      if cnd.next = some eraseId then
        some (hdel (hset h cur { cnd with next := ernext }) eraseId, true)
      else
        spliceLoop eraseId ernext h cnd.next fuel

/-- `erase(iterator pos)`: a guarded no-op on `end()`; otherwise remove the
denoted node (chain-head case, else predecessor scan) and return the
iterator advanced past it; a miss falls through to `end()`. -/
def erase_iter (m : UnorderedMap K V) (pos : Option Nat) :
    Option (UnorderedMap K V × Option Nat) :=
  match pos with
  | none => some (m, none)
  | some eraseId =>
    match hget m.heap eraseId with
    | none => none
    | some ernd =>
      let idx := m.bucketOf ernd.key
      if m.bget idx = some eraseId then
        let it := m.iterSucc ernd
        some ({ m with buckets := m.buckets.set idx ernd.next
                       head := if m.head = some eraseId then it else m.head
                       heap := hdel m.heap eraseId
                       size := m.size - 1 }, it)
      else
        match spliceLoop eraseId ernd.next m.heap (m.bget idx) m.heap.length with
        | none => none
        | some (h1, true) =>
          some ({ m with heap := h1, size := m.size - 1 }, m.iterSucc ernd)
        | some (_, false) => some (m, none)

/-- One bucket's inner loop of `clear()`: delete every chain node, with
`_size--` at each deletion; `_buckets[index]` itself is never written. -/
def clearChain : Heap K V → Option Nat → Nat → Nat → Option (Heap K V × Nat)
  | h, none, sz, _ => some (h, sz)
  | _, some _, _, 0 => none
  | h, some cur, sz, fuel+1 =>
    match hget h cur with
    | none => none
    | some cnd => clearChain (hdel h cur) cnd.next (sz - 1) fuel

/-- `clear()`: when `_size > 0`, walk every bucket deleting its chain nodes.
It does NOT null out `_buckets[index]` and does NOT reset `_head`. -/
def clear (m : UnorderedMap K V) : Option (UnorderedMap K V) :=
  if m.size > 0 then
    ((List.range m.bucket_count).foldlM
        (fun (st : Heap K V × Nat) b => clearChain st.1 (m.bget b) st.2 st.1.length)
        (m.heap, m.size)).map
      (fun st => { m with heap := st.1, size := st.2 })
  else
    some m

/-- Canonical iteration: repeated `operator++` from a start pointer,
collecting the visited entries (`begin()` starts at `_head`). -/
def traverseFrom (m : UnorderedMap K V) : Option Nat → Nat → Option (List (K × V))
  | none, _ => some []
  | some _, 0 => none
  | some p, fuel+1 =>
    match hget m.heap p with
    | none => none
    | some nd => (m.traverseFrom (m.iterSucc nd) fuel).map (fun l => (nd.key, nd.val) :: l)

/-- The entry sequence the loop `for (it = begin(); it != end(); ++it)`
visits. -/
def toListC (m : UnorderedMap K V) : Option (List (K × V)) :=
  m.traverseFrom m.head m.heap.length

/-- `local_iterator` walk: follow only `next` pointers. -/
def localFrom (h : Heap K V) : Option Nat → Nat → Option (List (K × V))
  | none, _ => some []
  | some _, 0 => none
  | some p, fuel+1 =>
    match hget h p with
    | none => none
    | some nd => (localFrom h nd.next fuel).map (fun l => (nd.key, nd.val) :: l)

/-- The entry sequence visited from `begin(n)` to `end(n)`. -/
def localList (m : UnorderedMap K V) (n : Nat) : Option (List (K × V)) :=
  localFrom m.heap (m.bget n) m.heap.length

/-- The counting loop of `bucket_size(n)`. -/
def bucketSizeLoop (h : Heap K V) : Option Nat → Nat → Nat → Option Nat
  | none, c, _ => some c
  | some _, _, 0 => none
  | some p, c, fuel+1 =>
    match hget h p with
    | none => none
    | some nd => bucketSizeLoop h nd.next (c+1) fuel

/-- `bucket_size(n)`. -/
def bucket_size (m : UnorderedMap K V) (n : Nat) : Option Nat :=
  bucketSizeLoop m.heap (m.bget n) 0 m.heap.length

/-- Inner loop of the copy constructor: walk one source chain head-to-tail,
calling `insert(curNode->val)` on the destination for each node. -/
def copyChainLoop (src : Heap K V) :
    UnorderedMap K V → Option Nat → Nat → Option (UnorderedMap K V)
  | dst, none, _ => some dst
  | _, some _, 0 => none
  | dst, some p, fuel+1 =>
    match hget src p with
    | none => none
    | some nd =>
      match dst.insert_copy nd.key nd.val with
      | none => none
      | some r => copyChainLoop src r.1 nd.next fuel

/-- `UnorderedMap(const UnorderedMap& other)`: same `_bucket_count`, a fresh
zeroed bucket array, then re-insert every chain, bucket by bucket,
head-to-tail. -/
def copyCtor (other : UnorderedMap K V) : Option (UnorderedMap K V) :=
  let init : UnorderedMap K V :=
    { bucket_count := other.bucket_count
      buckets := List.replicate other.bucket_count none
      head := none
      size := 0
      nextId := 0
      heap := []
      hashF := other.hashF }
  (List.range other.bucket_count).foldlM
    (fun dst b => copyChainLoop other.heap dst (other.bget b) other.heap.length)
    init

/-- The value `find(key)->second` denotes, when the lookup completes and
hits. -/
def mval (m : UnorderedMap K V) (k : K) : Option V :=
  match m.findPtr k with
  | some (some i) => (hget m.heap i).map (fun nd => nd.val)
  | _ => none

end UnorderedMap

/-- The fixed modulus of the polynomial rolling hash. -/
def polyM : Nat := 3298534883309

/-- The loop of `polynomial_rolling_hash::operator()` in hash_functions.cpp:
`hash` and `p` are `size_t` (arithmetic modulo 2 ^ 64); each step does
`hash += c * p` with NO reduction of `hash` modulo `polyM`, and
`p = (p * 19) % 3298534883309ul`. -/
def polyLoop : List Nat → Nat → Nat → Nat
  | [], hash, _ => hash
  | c :: cs, hash, p => polyLoop cs ((hash + c * p % 2 ^ 64) % 2 ^ 64) ((p * 19) % polyM)

/-- `polynomial_rolling_hash::operator()(str)`, the key bytes given
left-to-right. -/
def polynomial_rolling_hash (s : List Nat) : Nat :=
  polyLoop s 0 1

/-- Follows the spec's words, for comparison with the source function:
"accumulates `Σ byte[i] * base^i mod M` for fixed base 19 and modulus
3298534883309 ... with the accumulator reduced modulo M at every
accumulation step". -/
def spec_poly_loop : List Nat → Nat → Nat → Nat
  | [], hash, _ => hash
  | c :: cs, hash, p => spec_poly_loop cs ((hash + c * p) % polyM) ((p * 19) % polyM)

/-- The spec's polynomial rolling hash (accumulator reduced every step). -/
def spec_polynomial_hash (s : List Nat) : Nat :=
  spec_poly_loop s 0 1

/-! ### Concrete states used by counterexamples and bug witnesses -/

/-- A freshly constructed table: bucket hint 1, prime-sized to 2 buckets,
identity hash on natural-number keys. -/
def mEx0 : UnorderedMap Nat Nat := UnorderedMap.mkMap (fun k => k) 1

/-- `mEx0` after `insert({0, 5})` (rvalue overload): one node at address 0 in
bucket 0. -/
def mEx1 : UnorderedMap Nat Nat :=
  { bucket_count := 2
    buckets := [some 0, none]
    head := some 0
    size := 1
    nextId := 1
    heap := [(0, { next := none, key := 0, val := 5 })]
    hashF := fun k => k }

/-- `mEx1` after `clear()`: the node is destroyed and `_size` is zero, but
`_buckets[0]` and `_head` still hold the freed address 0. -/
def mExC : UnorderedMap Nat Nat :=
  { bucket_count := 2
    buckets := [some 0, none]
    head := some 0
    size := 0
    nextId := 1
    heap := []
    hashF := fun k => k }

theorem mEx1_run : mEx0.insert_move 0 5 = some (mEx1, 0, true) := rfl

theorem mExC_run : mEx1.clear = some mExC := rfl

/-! ### C2 -/

/-- C2: the claim says `erase(key)` is total and returns 0 when the key's
bucket chain is empty.  The code reads `currentNode->val.first` before any
null check, so on a freshly constructed table (bucket hint 5, identity
hash) `erase(0)` dereferences the null chain head: the run faults instead
of returning 0. -/
theorem C2_erase_empty_bucket_faults :
    (UnorderedMap.mkMap (K := Nat) (V := Nat) (fun k => k) 5).erase_key 0 = none := rfl

/-! ### C3 -/

/-- C3: after `clear()` on a table holding one entry, `_size` is 0 and every
node is destroyed, but the claim's other conjuncts fail: `clear()` never
writes `_buckets[index]` or `_head`, so the bucket array still holds the
freed address 0 (the chain is not empty at the pointer level) and the
canonical head reference is `some 0`, not none. -/
theorem C3_clear_bug :
    mEx1.clear = some mExC ∧ mExC.size = 0 ∧ mExC.heap = [] ∧
      mExC.buckets = [some 0, none] ∧ mExC.head = some 0 :=
  ⟨rfl, rfl, rfl, rfl, rfl⟩

/-! ### C9 -/

/-- C9: `erase(iterator)` called with the end iterator (`_ptr == nullptr`)
is a guarded no-op: the guard `pos == end()` returns `end()` before touching
any state, so the whole table object (size, head, buckets, heap) is returned
unchanged. -/
theorem C9_erase_end_noop {K V : Type} [DecidableEq K] (m : UnorderedMap K V) :
    m.erase_iter none = some (m, none) := rfl

/-! ### C5 -/

/-- C5 counterexample: on the 11-byte string of `'a'` (byte 97), the source
hash returns 307795178159424, which differs from the spec's
every-step-reduced value and is not below the modulus: the accumulator is
never reduced modulo `polyM`, only the running power is. -/
theorem C5_cex :
    polynomial_rolling_hash (List.replicate 11 97) ≠
        spec_polynomial_hash (List.replicate 11 97) ∧
      ¬ polynomial_rolling_hash (List.replicate 11 97) < polyM := by
  constructor
  · decide
  · decide

lemma polyLoop_closed (s : List Nat) : ∀ hash p, hash < 2 ^ 64 → p < polyM →
    polyLoop s hash p =
      (hash + ((List.range s.length).map
        (fun i => s.getD i 0 * (p * 19 ^ i % polyM))).sum) % 2 ^ 64 := by
  induction s with
  | nil =>
    intro hash p hh _
    simp only [polyLoop, List.length_nil, List.range_zero, List.map_nil, List.sum_nil,
      Nat.add_zero]
    exact (Nat.mod_eq_of_lt hh).symm
  | cons c cs ih =>
    intro hash p hh hp
    have hM : 0 < polyM := by norm_num [polyM]
    have h1 : (hash + c * p % 2 ^ 64) % 2 ^ 64 < 2 ^ 64 :=
      Nat.mod_lt _ (by norm_num)
    have h2 : (p * 19) % polyM < polyM := Nat.mod_lt _ hM
    rw [polyLoop, ih _ _ h1 h2]
    have hterm : ∀ i, (p * 19) % polyM * 19 ^ i % polyM = p * 19 ^ (i + 1) % polyM := by
      intro i
      rw [Nat.mod_mul_mod, pow_succ, ← mul_assoc]
      congr 1
      ring
    have hsum : ((List.range cs.length).map
          (fun i => cs.getD i 0 * ((p * 19) % polyM * 19 ^ i % polyM))).sum =
        ((List.range cs.length).map
          (fun i => cs.getD i 0 * (p * 19 ^ (i + 1) % polyM))).sum := by
      congr 1
      apply List.map_congr_left
      intro i _
      rw [hterm]
    rw [hsum]
    have hrange : (List.range (c :: cs).length).map
          (fun i => (c :: cs).getD i 0 * (p * 19 ^ i % polyM)) =
        (c * (p * 19 ^ 0 % polyM)) ::
          (List.range cs.length).map (fun i => cs.getD i 0 * (p * 19 ^ (i + 1) % polyM)) := by
      rw [List.length_cons, List.range_succ_eq_map, List.map_cons, List.map_map]
      rfl
    rw [hrange]
    have hp0 : p * 19 ^ 0 % polyM = p := by
      rw [pow_zero, mul_one, Nat.mod_eq_of_lt hp]
    rw [hp0, List.sum_cons]
    rw [Nat.mod_add_mod]
    have : hash + c * p % 2 ^ 64 +
          ((List.range cs.length).map (fun i => cs.getD i 0 * (p * 19 ^ (i + 1) % polyM))).sum ≡
        hash + c * p +
          ((List.range cs.length).map (fun i => cs.getD i 0 * (p * 19 ^ (i + 1) % polyM))).sum
          [MOD 2 ^ 64] :=
      ((Nat.mod_modEq (c * p) (2 ^ 64)).add_left hash).add_right _
    rw [Nat.ModEq] at this
    rw [this, add_assoc]

/-- C5 (amended): for every byte string, the source hash equals
`(Σ byte[i] * (19^i mod polyM)) mod 2^64`, processing bytes left to right:
only the running power is reduced modulo the modulus at each step; the
accumulator wraps at the machine width and the result is not reduced modulo
`polyM`. -/
theorem C5_poly_closed_form (s : List Nat) :
    polynomial_rolling_hash s =
      (((List.range s.length).map (fun i => s.getD i 0 * (19 ^ i % polyM))).sum) % 2 ^ 64 := by
  have h := polyLoop_closed s 0 1 (by norm_num) (by norm_num [polyM])
  simpa [polynomial_rolling_hash] using h

/-! ### Heap access lemmas -/

namespace UnorderedMap

variable {K V : Type} [DecidableEq K]

lemma hget_cons (e : Nat × HashNode K V) (h : Heap K V) (i : Nat) :
    hget (e :: h) i = if i = e.1 then some e.2 else hget h i := by
  obtain ⟨j, nd⟩ := e
  simp only [hget, List.lookup_cons]
  by_cases hij : i = j
  · subst hij
    simp
  · have hb : (i == j) = false := beq_eq_false_iff_ne.mpr hij
    rw [hb]
    simp [hij]

lemma hget_hput_self (h : Heap K V) (i : Nat) (nd : HashNode K V) :
    hget (hput h i nd) i = some nd := by
  simp [hput, hget_cons]

lemma hget_hput_ne (h : Heap K V) {i j : Nat} (nd : HashNode K V) (hne : j ≠ i) :
    hget (hput h i nd) j = hget h j := by
  simp [hput, hget_cons, hne]

lemma hget_mem {h : Heap K V} {i : Nat} {nd : HashNode K V}
    (hg : hget h i = some nd) : (i, nd) ∈ h := by
  induction h with
  | nil => simp [hget] at hg
  | cons e t ih =>
    rw [hget_cons] at hg
    by_cases hie : i = e.1
    · rw [if_pos hie] at hg
      injection hg with hg2
      rw [hie, ← hg2]
      simp
    · rw [if_neg hie] at hg
      exact List.mem_cons_of_mem _ (ih hg)

lemma mem_ids_of_hget {h : Heap K V} {i : Nat} {nd : HashNode K V}
    (hg : hget h i = some nd) : i ∈ h.map Prod.fst :=
  List.mem_map_of_mem _ (hget_mem hg)

lemma hget_of_mem {h : Heap K V} {e : Nat × HashNode K V}
    (hnd : (h.map Prod.fst).Nodup) (hm : e ∈ h) : hget h e.1 = some e.2 := by
  induction h with
  | nil => simp at hm
  | cons f t ih =>
    simp only [List.map_cons, List.nodup_cons] at hnd
    rw [hget_cons]
    rcases List.mem_cons.mp hm with he | he
    · rw [he, if_pos rfl]
    · have hne : e.1 ≠ f.1 := by
        intro hef
        exact hnd.1 (hef ▸ List.mem_map_of_mem Prod.fst he)
      rw [if_neg hne]
      exact ih hnd.2 he

lemma hdel_cons_self {t : Heap K V} {e : Nat × HashNode K V} {i : Nat} (hei : e.1 = i) :
    hdel (e :: t) i = hdel t i := by
  simp only [hdel]
  exact List.filter_cons_of_neg (by simp [hei])

lemma hdel_cons_ne {t : Heap K V} {e : Nat × HashNode K V} {i : Nat} (hei : e.1 ≠ i) :
    hdel (e :: t) i = e :: hdel t i := by
  simp only [hdel]
  exact List.filter_cons_of_pos (by simp [hei])

lemma hget_hdel_ne (h : Heap K V) {i j : Nat} (hne : j ≠ i) :
    hget (hdel h i) j = hget h j := by
  induction h with
  | nil => rfl
  | cons e t ih =>
    by_cases hei : e.1 = i
    · rw [hdel_cons_self hei, hget_cons, if_neg (by rw [hei]; exact hne)]
      exact ih
    · rw [hdel_cons_ne hei, hget_cons, hget_cons]
      by_cases hje : j = e.1
      · rw [if_pos hje, if_pos hje]
      · rw [if_neg hje, if_neg hje]
        exact ih

lemma hget_hdel_self (h : Heap K V) (i : Nat) : hget (hdel h i) i = none := by
  induction h with
  | nil => rfl
  | cons e t ih =>
    by_cases hei : e.1 = i
    · rw [hdel_cons_self hei]
      exact ih
    · rw [hdel_cons_ne hei, hget_cons, if_neg (fun hh => hei hh.symm)]
      exact ih

lemma hdel_sublist (h : Heap K V) (i : Nat) : List.Sublist (hdel h i) h :=
  List.filter_sublist h

lemma hdel_eq_self {h : Heap K V} {i : Nat} (hni : i ∉ h.map Prod.fst) :
    hdel h i = h := by
  apply List.filter_eq_self.mpr
  intro e he
  simp only [bne_iff_ne, ne_eq, decide_eq_true_eq]
  intro h2
  exact hni (h2 ▸ List.mem_map_of_mem Prod.fst he)

lemma hset_ids (h : Heap K V) (i : Nat) (nd : HashNode K V) :
    (hset h i nd).map Prod.fst = h.map Prod.fst := by
  induction h with
  | nil => rfl
  | cons e t ih =>
    simp only [hset, List.map_cons] at ih ⊢
    by_cases hei : e.1 = i
    · rw [if_pos hei, ih]
      simp [hei]
    · rw [if_neg hei, ih]

lemma hget_hset_ne (h : Heap K V) {i j : Nat} (nd : HashNode K V) (hne : j ≠ i) :
    hget (hset h i nd) j = hget h j := by
  induction h with
  | nil => rfl
  | cons e t ih =>
    simp only [hset, List.map_cons]
    by_cases hei : e.1 = i
    · rw [if_pos hei, hget_cons, hget_cons]
      have h1 : j ≠ (i, nd).1 := hne
      rw [if_neg h1, if_neg (by rw [hei]; exact hne)]
      exact ih
    · rw [if_neg hei, hget_cons, hget_cons]
      by_cases hje : j = e.1
      · rw [if_pos hje, if_pos hje]
      · rw [if_neg hje, if_neg hje]
        exact ih

lemma hget_hset_self (h : Heap K V) {i : Nat} (nd : HashNode K V)
    (hmem : i ∈ h.map Prod.fst) : hget (hset h i nd) i = some nd := by
  induction h with
  | nil => simp at hmem
  | cons e t ih =>
    simp only [hset, List.map_cons]
    by_cases hei : e.1 = i
    · rw [if_pos hei, hget_cons, if_pos rfl]
    · rw [if_neg hei, hget_cons, if_neg (fun hh => hei hh.symm)]
      simp only [List.map_cons, List.mem_cons] at hmem
      rcases hmem with hmem | hmem
      · exact absurd hmem.symm hei
      · exact ih hmem

lemma length_hdel {h : Heap K V} {i : Nat}
    (hnd : (h.map Prod.fst).Nodup) (hmem : i ∈ h.map Prod.fst) :
    (hdel h i).length + 1 = h.length := by
  induction h with
  | nil => simp at hmem
  | cons e t ih =>
    simp only [List.map_cons, List.nodup_cons] at hnd
    simp only [List.map_cons, List.mem_cons] at hmem
    by_cases hei : e.1 = i
    · rw [hdel_cons_self hei, List.length_cons]
      have hni : i ∉ t.map Prod.fst := hei ▸ hnd.1
      rw [hdel_eq_self hni]
    · rw [hdel_cons_ne hei, List.length_cons, List.length_cons]
      have hmem2 : i ∈ t.map Prod.fst := by
        rcases hmem with hmem | hmem
        · exact absurd hmem.symm hei
        · exact hmem
      have := ih hnd.2 hmem2
      omega

lemma hdel_perm {h : Heap K V} {e : Nat × HashNode K V}
    (hnd : (h.map Prod.fst).Nodup) (hmem : e ∈ h) :
    List.Perm h (e :: hdel h e.1) := by
  induction h with
  | nil => simp at hmem
  | cons f t ih =>
    simp only [List.map_cons, List.nodup_cons] at hnd
    rcases List.mem_cons.mp hmem with he | he
    · subst he
      rw [hdel_cons_self rfl]
      have hni : e.1 ∉ t.map Prod.fst := hnd.1
      rw [hdel_eq_self hni]
    · have hfe : f.1 ≠ e.1 := by
        intro h2
        exact hnd.1 (h2 ▸ List.mem_map_of_mem Prod.fst he)
      rw [hdel_cons_ne hfe]
      exact ((ih hnd.2 he).cons f).trans (List.Perm.swap e f _)

end UnorderedMap

/-! ### firstLive and bucket-array lemmas -/

namespace UnorderedMap

variable {K V : Type} [DecidableEq K]

lemma firstLive_eq_none_iff (l : List (Option Nat)) :
    firstLive l = none ↔ ∀ x ∈ l, x = none := by
  induction l with
  | nil => simp [firstLive]
  | cons o t ih =>
    match o with
    | none => simp [firstLive, ih]
    | some y => simp [firstLive]

lemma firstLive_spec {l : List (Option Nat)} {x : Nat} (hx : firstLive l = some x) :
    ∃ j, j < l.length ∧ l.getD j none = some x ∧ ∀ i, i < j → l.getD i none = none := by
  induction l with
  | nil => simp [firstLive] at hx
  | cons o t ih =>
    match o with
    | some y =>
      simp only [firstLive] at hx
      exact ⟨0, by simp, by simpa using hx, fun i hi => absurd hi (by omega)⟩
    | none =>
      simp only [firstLive] at hx
      obtain ⟨j, hj, hjx, hpre⟩ := ih hx
      refine ⟨j + 1, by simpa using Nat.succ_lt_succ hj, by simpa using hjx, ?_⟩
      intro i hi
      match i with
      | 0 => simp
      | i+1 => simpa using hpre i (by omega)

lemma firstLive_of_first {l : List (Option Nat)} {j : Nat} {x : Nat}
    (hjx : l.getD j none = some x) (hpre : ∀ i, i < j → l.getD i none = none) :
    firstLive l = some x := by
  induction l generalizing j with
  | nil => simp at hjx
  | cons o t ih =>
    match j with
    | 0 =>
      simp only [List.getD_cons_zero] at hjx
      rw [hjx]
      rfl
    | j+1 =>
      have ho : o = none := by simpa using hpre 0 (by omega)
      subst ho
      simp only [firstLive]
      exact ih (by simpa using hjx) (fun i hi => by simpa using hpre (i+1) (by omega))

lemma getD_set_ne {α : Type _} (d : α) (l : List α) (b i : Nat) (p : α) (hne : i ≠ b) :
    (l.set b p).getD i d = l.getD i d := by
  induction l generalizing b i with
  | nil => rfl
  | cons o t ih =>
    match b, i with
    | 0, 0 => exact absurd rfl hne
    | 0, i+1 => simp
    | b+1, 0 => simp
    | b+1, i+1 =>
      simp only [List.set_cons_succ, List.getD_cons_succ]
      exact ih b i (by omega)

lemma getD_set_self {α : Type _} {d : α} {l : List α} {b : Nat} (p : α) (hb : b < l.length) :
    (l.set b p).getD b d = p := by
  induction l generalizing b with
  | nil => simp at hb
  | cons o t ih =>
    match b with
    | 0 => simp
    | b+1 =>
      simp only [List.set_cons_succ, List.getD_cons_succ]
      exact ih (by simpa using hb)

lemma firstLive_set_some {l : List (Option Nat)} {b : Nat} {x : Nat}
    (hb : b < l.length) (hpre : ∀ i, i < b → l.getD i none = none) :
    firstLive (l.set b (some x)) = some x := by
  apply firstLive_of_first (j := b)
  · exact getD_set_self _ hb
  · intro i hi
    rw [getD_set_ne _ _ _ _ _ (by omega)]
    exact hpre i hi

lemma firstLive_set_none {l : List (Option Nat)} {b : Nat}
    (hb : b < l.length) (hpre : ∀ i, i < b → l.getD i none = none) :
    firstLive (l.set b none) = firstLive (l.drop (b + 1)) := by
  induction l generalizing b with
  | nil => simp at hb
  | cons o t ih =>
    match b with
    | 0 => simp [firstLive]
    | b+1 =>
      have ho : o = none := by simpa using hpre 0 (by omega)
      subst ho
      simp only [List.set_cons_succ, List.drop_succ_cons]
      show firstLive (t.set b none) = _
      exact ih (by simpa using hb) (fun i hi => by simpa using hpre (i+1) (by omega))

lemma firstLive_set_of_lt {l : List (Option Nat)} {j b : Nat} {x : Nat} (p : Option Nat)
    (hjb : j < b) (hjx : l.getD j none = some x)
    (hpre : ∀ i, i < j → l.getD i none = none) :
    firstLive (l.set b p) = some x := by
  apply firstLive_of_first (j := j)
  · rw [getD_set_ne _ _ _ _ _ (by omega)]
    exact hjx
  · intro i hi
    rw [getD_set_ne _ _ _ _ _ (by omega)]
    exact hpre i hi

/-! ### Chains and well-formedness -/

/-- The pointer `p` heads exactly the chain `l` inside heap `h`: every listed
address is live and holds the listed node, consecutive `next` links match,
and the final `next` is null. -/
def isChain (h : Heap K V) : Option Nat → List (Nat × HashNode K V) → Prop
  | p, [] => p = none
  | p, e :: rest => p = some e.1 ∧ hget h e.1 = some e.2 ∧ isChain h e.2.next rest

/-- The (key, value) entry a chain element carries. -/
def entryOf (e : Nat × HashNode K V) : K × V := (e.2.key, e.2.val)

lemma isChain_mem_hget {h : Heap K V} :
    ∀ {l : List (Nat × HashNode K V)} {p e}, isChain h p l → e ∈ l →
      hget h e.1 = some e.2 := by
  intro l
  induction l with
  | nil =>
    intro p e _ he
    simp at he
  | cons f t ih =>
    intro p e hc he
    obtain ⟨hp, hg, hrest⟩ := hc
    rcases List.mem_cons.mp he with he | he
    · rw [he]
      exact hg
    · exact ih hrest he

lemma isChain_congr {h h2 : Heap K V} :
    ∀ {l : List (Nat × HashNode K V)} {p}, isChain h p l →
      (∀ e ∈ l, hget h2 e.1 = some e.2) → isChain h2 p l := by
  intro l
  induction l with
  | nil =>
    intro p hc _
    exact hc
  | cons f t ih =>
    intro p hc hsame
    obtain ⟨hp, hg, hrest⟩ := hc
    exact ⟨hp, hsame f (by simp),
      ih hrest (fun e he => hsame e (List.mem_cons_of_mem _ he))⟩

lemma isChain_sub_heap {h : Heap K V} {l : List (Nat × HashNode K V)} {p}
    (hc : isChain h p l) : ∀ e ∈ l, e ∈ h :=
  fun e he => hget_mem (isChain_mem_hget hc he)

/-- Well-formedness of a table state relative to the list `css` of its
bucket chains: the heap is exactly the chains' contents; addresses are
globally distinct (chains acyclic and disjoint); every node sits in the
bucket its key hashes to; live keys are distinct; `_size` counts the nodes;
every live address is below the allocator's next fresh address. -/
structure WFc (m : UnorderedMap K V) (css : List (List (Nat × HashNode K V))) : Prop where
  bcPos : 0 < m.bucket_count
  bkLen : m.buckets.length = m.bucket_count
  cssLen : css.length = m.bucket_count
  chainsOk : ∀ b, b < css.length → isChain m.heap (m.bget b) (css.getD b [])
  heapPerm : List.Perm m.heap css.flatten
  joinIdsNodup : (css.flatten.map Prod.fst).Nodup
  bCorrect : ∀ b, b < css.length → ∀ e ∈ css.getD b [], m.bucketOf e.2.key = b
  keysNodup : (css.flatten.map (fun e => e.2.key)).Nodup
  sizeOk : m.size = m.heap.length
  idsLt : ∀ e ∈ m.heap, e.1 < m.nextId

/-- A well-formed (reachable, fault-free) table state. -/
def WF (m : UnorderedMap K V) : Prop :=
  ∃ css, WFc m css

/-- The canonical-head invariant: `_head` equals the chain-head pointer of
the lowest-indexed non-empty bucket, and is null when all buckets are
empty. -/
def headInv (m : UnorderedMap K V) : Prop :=
  m.head = firstLive m.buckets

lemma WFc.idsNodup {m : UnorderedMap K V} {css} (hw : WFc m css) :
    (m.heap.map Prod.fst).Nodup :=
  ((hw.heapPerm.map Prod.fst).nodup_iff).mpr hw.joinIdsNodup

lemma WFc.bLt {m : UnorderedMap K V} {css} (hw : WFc m css) (k : K) :
    m.bucketOf k < css.length := by
  rw [hw.cssLen]
  exact Nat.mod_lt _ hw.bcPos

lemma getD_mem {α : Type _} {l : List α} {b : Nat} (d : α) (hb : b < l.length) :
    l.getD b d ∈ l := by
  induction l generalizing b with
  | nil => simp at hb
  | cons c t ih =>
    match b with
    | 0 => simp
    | b+1 =>
      simp only [List.getD_cons_succ]
      exact List.mem_cons_of_mem _ (ih (by simpa using hb))

lemma WFc.chain_mem_flatten {m : UnorderedMap K V} {css} (hw : WFc m css)
    {b : Nat} (hb : b < css.length) {e : Nat × HashNode K V}
    (he : e ∈ css.getD b []) : e ∈ css.flatten :=
  List.mem_flatten.mpr ⟨_, getD_mem [] hb, he⟩

lemma WFc.chain_length_le {m : UnorderedMap K V} {css} (hw : WFc m css)
    {b : Nat} (hb : b < css.length) :
    (css.getD b []).length ≤ m.heap.length := by
  have hsub : List.Sublist (css.getD b []) css.flatten :=
    List.sublist_flatten_of_mem (getD_mem [] hb)
  have := hsub.length_le
  have hlen := hw.heapPerm.length_eq
  omega

end UnorderedMap

/-! ### Flatten / set permutation bookkeeping -/

namespace UnorderedMap

variable {K V : Type} [DecidableEq K]

lemma set_getD_self {α : Type _} {l : List α} {b : Nat} {d : α} (hb : b < l.length) :
    l.set b (l.getD b d) = l := by
  induction l generalizing b with
  | nil => rfl
  | cons c t ih =>
    match b with
    | 0 => simp
    | b+1 =>
      simp only [List.getD_cons_succ, List.set_cons_succ]
      rw [ih (by simpa using hb)]

lemma flatten_set_perm {α : Type _} (l2 : List α) :
    ∀ (css : List (List α)) (b : Nat), b < css.length →
      List.Perm ((css.set b l2).flatten) (l2 ++ (css.set b ([] : List α)).flatten) := by
  intro css
  induction css with
  | nil =>
    intro b hb
    simp at hb
  | cons c t ih =>
    intro b hb
    match b with
    | 0 => simp
    | b+1 =>
      simp only [List.set_cons_succ, List.flatten_cons]
      have h2 := (ih b (by simpa using hb)).append_left c
      refine h2.trans ?_
      rw [← List.append_assoc, ← List.append_assoc]
      exact List.perm_append_comm.append_right _

/-- Decompose a flatten along bucket `b`: the contents are the chain at `b`
together with all other chains. -/
lemma flatten_decomp {α : Type _} {css : List (List α)} {b : Nat} (hb : b < css.length) :
    List.Perm css.flatten (css.getD b [] ++ (css.set b ([] : List α)).flatten) := by
  have := flatten_set_perm (css.getD b []) css b hb
  rwa [set_getD_self hb] at this

/-! ### find characterisation -/

lemma findLoop_spec {h : Heap K V} {k : K} :
    ∀ {l : List (Nat × HashNode K V)} {p fuel}, isChain h p l → l.length ≤ fuel →
      findLoop h k p fuel = some ((l.find? (fun e => e.2.key == k)).map Prod.fst) := by
  intro l
  induction l with
  | nil =>
    intro p fuel hc _
    rw [hc]
    cases fuel <;> rfl
  | cons e t ih =>
    intro p fuel hc hf
    obtain ⟨hp, hg, hrest⟩ := hc
    subst hp
    match fuel with
    | 0 => simp at hf
    | fuel+1 =>
      simp only [findLoop, hg]
      by_cases hk : e.2.key = k
      · rw [if_pos hk, List.find?_cons_of_pos _ (by simp [hk])]
        rfl
      · rw [if_neg hk, List.find?_cons_of_neg _ (by simp [hk])]
        exact ih hrest (by simpa using hf)

lemma findPtr_eq {m : UnorderedMap K V} {css} (hw : WFc m css) (k : K) :
    m.findPtr k =
      some (((css.getD (m.bucketOf k) []).find? (fun e => e.2.key == k)).map Prod.fst) := by
  have hc := hw.chainsOk (m.bucketOf k) (hw.bLt k)
  exact findLoop_spec hc (hw.chain_length_le (hw.bLt k))

/-- A key that no live node bears misses (`_find` returns null). -/
lemma findPtr_miss {m : UnorderedMap K V} {css} (hw : WFc m css) {k : K}
    (habs : ∀ e ∈ m.heap, e.2.key ≠ k) : m.findPtr k = some none := by
  rw [findPtr_eq hw k]
  have hfn : (css.getD (m.bucketOf k) []).find? (fun e => e.2.key == k) = none := by
    rw [List.find?_eq_none]
    intro e he
    simp only [beq_iff_eq]
    exact habs e (hw.heapPerm.mem_iff.mpr (hw.chain_mem_flatten (hw.bLt k) he))
  rw [hfn]
  rfl

/-- A live key is found: `_find` returns a pointer into the key's own
bucket chain, at a node bearing the key. -/
lemma findPtr_hit {m : UnorderedMap K V} {css} (hw : WFc m css) {k : K}
    {e : Nat × HashNode K V} (he : e ∈ m.heap) (hk : e.2.key = k) :
    ∃ f, f ∈ css.getD (m.bucketOf k) [] ∧ f.2.key = k ∧
      m.findPtr k = some (some f.1) := by
  have hefl : e ∈ css.flatten := hw.heapPerm.mem_iff.mp he
  obtain ⟨cs, hcs, hecs⟩ := List.mem_flatten.mp hefl
  obtain ⟨n, hn⟩ := List.mem_iff_get.mp hcs
  have hgetd : css.getD n.1 [] = cs := by
    have h1 : css.getD n.1 [] = css.get n := by
      have := List.getD_eq_getElem?_getD css n.1 ([] : List (Nat × HashNode K V))
      rw [this, List.getElem?_eq_getElem n.2]
      simp [List.get_eq_getElem]
    rw [h1, hn]
  have hbk : m.bucketOf k = n.1 := by
    have := hw.bCorrect n.1 n.2 e (by rw [hgetd]; exact hecs)
    rw [← hk, this]
  have hmem : e ∈ css.getD (m.bucketOf k) [] := by
    rw [hbk, hgetd]
    exact hecs
  have hsome : ((css.getD (m.bucketOf k) []).find? (fun e => e.2.key == k)).isSome := by
    rw [List.find?_isSome]
    exact ⟨e, hmem, by simp [hk]⟩
  obtain ⟨f, hf⟩ := Option.isSome_iff_exists.mp hsome
  refine ⟨f, List.mem_of_find?_eq_some hf, by simpa using List.find?_some hf, ?_⟩
  rw [findPtr_eq hw k, hf]
  rfl

end UnorderedMap

/-! ### Effect of insertion -/

namespace UnorderedMap

variable {K V : Type} [DecidableEq K]

/-- The state `_insert_into_bucket(b, (k, v))` constructs: a fresh node
holding the old chain head as `next`, prepended at bucket `b`, `_size`
bumped, the allocator advanced, and `_head` set to `hd2`. -/
def insResult (m : UnorderedMap K V) (b : Nat) (k : K) (v : V) (hd2 : Option Nat) :
    UnorderedMap K V where
  bucket_count := m.bucket_count
  buckets := m.buckets.set b (some m.nextId)
  head := hd2
  size := m.size + 1
  nextId := m.nextId + 1
  heap := hput m.heap m.nextId ⟨m.bget b, k, v⟩
  hashF := m.hashF

lemma insert_into_bucket_spec {m : UnorderedMap K V} {css} (hw : WFc m css)
    (hh : headInv m) (k : K) (v : V)
    (habs : ∀ e ∈ m.heap, e.2.key ≠ k) :
    ∃ hd2, m.insert_into_bucket (m.bucketOf k) k v =
        some (insResult m (m.bucketOf k) k v hd2, m.nextId) ∧
      WFc (insResult m (m.bucketOf k) k v hd2)
        (css.set (m.bucketOf k)
          ((m.nextId, ⟨m.bget (m.bucketOf k), k, v⟩) :: css.getD (m.bucketOf k) [])) ∧
      headInv (insResult m (m.bucketOf k) k v hd2) := by
  have hbl : m.bucketOf k < css.length := hw.bLt k
  have hbkl : m.bucketOf k < m.buckets.length := by
    rw [hw.bkLen]
    rw [hw.cssLen] at hbl
    exact hbl
  have hfresh : ∀ e ∈ m.heap, e.1 ≠ m.nextId := fun e he => Nat.ne_of_lt (hw.idsLt e he)
  have hndm : (match m.bget (m.bucketOf k) with
      | none => ({ next := none, key := k, val := v } : HashNode K V)
      | some hd => { next := some hd, key := k, val := v }) =
      (⟨m.bget (m.bucketOf k), k, v⟩ : HashNode K V) := by
    cases m.bget (m.bucketOf k) <;> rfl
  -- frame: old nodes are unchanged in the extended heap
  have hframe : ∀ {l : List (Nat × HashNode K V)} {p}, isChain m.heap p l →
      ∀ e ∈ l, hget (hput m.heap m.nextId ⟨m.bget (m.bucketOf k), k, v⟩) e.1 = some e.2 := by
    intro l p hc e he
    rw [hget_hput_ne _ _ (hfresh e (isChain_sub_heap hc e he))]
    exact isChain_mem_hget hc he
  -- the new chain at the target bucket
  have hchain2 : isChain (hput m.heap m.nextId ⟨m.bget (m.bucketOf k), k, v⟩)
      (some m.nextId)
      ((m.nextId, ⟨m.bget (m.bucketOf k), k, v⟩) :: css.getD (m.bucketOf k) []) := by
    refine ⟨rfl, hget_hput_self _ _ _, ?_⟩
    exact isChain_congr (hw.chainsOk _ hbl) (hframe (hw.chainsOk _ hbl))
  -- the flatten of the updated chain list, as a permutation
  have hflat2 : List.Perm
      ((css.set (m.bucketOf k)
        ((m.nextId, ⟨m.bget (m.bucketOf k), k, v⟩) :: css.getD (m.bucketOf k) [])).flatten)
      ((m.nextId, ⟨m.bget (m.bucketOf k), k, v⟩) :: css.flatten) := by
    refine (flatten_set_perm _ css _ hbl).trans ?_
    rw [List.cons_append]
    exact ((flatten_decomp hbl).symm).cons _
  -- well-formedness of the post-state, whatever head value the update picks
  have hWF2 : ∀ hd2 : Option Nat, WFc (insResult m (m.bucketOf k) k v hd2)
      (css.set (m.bucketOf k)
        ((m.nextId, ⟨m.bget (m.bucketOf k), k, v⟩) :: css.getD (m.bucketOf k) [])) := by
    intro hd2
    refine ⟨hw.bcPos, ?_, ?_, ?_, ?_, ?_, ?_, ?_, ?_, ?_⟩
    · show (m.buckets.set (m.bucketOf k) (some m.nextId)).length = m.bucket_count
      simpa using hw.bkLen
    · simpa using hw.cssLen
    · -- chainsOk
      intro c hc
      rw [List.length_set] at hc
      by_cases hcb : c = m.bucketOf k
      · subst hcb
        show isChain _
          ((m.buckets.set (m.bucketOf k) (some m.nextId)).getD (m.bucketOf k) none) _
        rw [getD_set_self _ hbkl, getD_set_self _ hbl]
        exact hchain2
      · show isChain _ ((m.buckets.set (m.bucketOf k) (some m.nextId)).getD c none) _
        rw [getD_set_ne _ _ _ _ _ hcb, getD_set_ne _ _ _ _ _ hcb]
        exact isChain_congr (hw.chainsOk c hc) (hframe (hw.chainsOk c hc))
    · -- heapPerm
      exact (hw.heapPerm.cons _).trans hflat2.symm
    · -- joinIdsNodup
      rw [(hflat2.map Prod.fst).nodup_iff, List.map_cons, List.nodup_cons]
      refine ⟨?_, hw.joinIdsNodup⟩
      intro hmem
      simp only [List.mem_map] at hmem
      obtain ⟨e, he, hee⟩ := hmem
      exact hfresh e (hw.heapPerm.mem_iff.mpr he) hee
    · -- bCorrect
      intro c hc e he
      rw [List.length_set] at hc
      show m.bucketOf e.2.key = c
      by_cases hcb : c = m.bucketOf k
      · subst hcb
        rw [getD_set_self _ hbl] at he
        rcases List.mem_cons.mp he with he | he
        · rw [he]
        · exact hw.bCorrect _ hc e he
      · rw [getD_set_ne _ _ _ _ _ hcb] at he
        exact hw.bCorrect c hc e he
    · -- keysNodup
      rw [(hflat2.map (fun e => e.2.key)).nodup_iff, List.map_cons, List.nodup_cons]
      refine ⟨?_, hw.keysNodup⟩
      intro hmem
      simp only [List.mem_map] at hmem
      obtain ⟨e, he, hee⟩ := hmem
      exact habs e (hw.heapPerm.mem_iff.mpr he) hee
    · -- sizeOk
      show m.size + 1 = _
      rw [hw.sizeOk]
      rfl
    · -- idsLt
      intro e he
      rcases List.mem_cons.mp he with he | he
      · rw [he]
        exact Nat.lt_succ_self _
      · exact Nat.lt_succ_of_lt (hw.idsLt e he)
  cases hm : m.head with
  | none =>
    have hfl : firstLive m.buckets = none := by rw [← hh, hm]
    have hall := (firstLive_eq_none_iff _).mp hfl
    refine ⟨some m.nextId, ?_, hWF2 _, ?_⟩
    · simp only [insert_into_bucket, hm, hndm]
      rfl
    · show some m.nextId = firstLive (m.buckets.set (m.bucketOf k) (some m.nextId))
      rw [firstLive_set_some hbkl]
      intro i hi
      exact hall _ (getD_mem none (by omega))
  | some hId =>
    have hfl : firstLive m.buckets = some hId := by rw [← hh, hm]
    obtain ⟨j, hjlen, hjx, hpre⟩ := firstLive_spec hfl
    have hbgj : m.bget j = some hId := hjx
    have hjcss : j < css.length := by
      rw [hw.cssLen]
      rw [hw.bkLen] at hjlen
      exact hjlen
    have hcj := hw.chainsOk j hjcss
    cases hcsj : css.getD j [] with
    | nil =>
      rw [hcsj] at hcj
      rw [hcj] at hbgj
      exact absurd hbgj (by simp)
    | cons e rest =>
      rw [hcsj] at hcj
      obtain ⟨hpe, hge, _⟩ := hcj
      have heId : e.1 = hId := by
        rw [hbgj] at hpe
        injection hpe with h2
        exact h2.symm
      have hge2 : hget (hput m.heap m.nextId ⟨m.bget (m.bucketOf k), k, v⟩) hId = some e.2 := by
        rw [← heId]
        rw [hget_hput_ne _ _ (hfresh e (hget_mem hge))]
        exact hge
      have hjb : m.bucketOf e.2.key = j :=
        hw.bCorrect j hjcss e (by rw [hcsj]; exact List.mem_cons_self _ _)
      by_cases hle : m.bucketOf k ≤ m.bucketOf e.2.key
      · refine ⟨some m.nextId, ?_, hWF2 _, ?_⟩
        · simp only [insert_into_bucket, hm, hndm, hge2, if_pos hle]
          rfl
        · show some m.nextId = firstLive (m.buckets.set (m.bucketOf k) (some m.nextId))
          rw [firstLive_set_some hbkl]
          intro i hi
          exact hpre i (by omega)
      · refine ⟨m.head, ?_, hWF2 _, ?_⟩
        · simp only [insert_into_bucket, hm, hndm, hge2, if_neg hle]
          rfl
        · show m.head = firstLive (m.buckets.set (m.bucketOf k) (some m.nextId))
          rw [hm, firstLive_set_of_lt _ (by omega) hjx hpre]

end UnorderedMap

/-! ### Operation-level insertion lemmas -/

namespace UnorderedMap

variable {K V : Type} [DecidableEq K]

/-- Every live node lies in the chain of the bucket its key hashes to. -/
lemma mem_chain_of_mem_heap {m : UnorderedMap K V} {css} (hw : WFc m css)
    {e : Nat × HashNode K V} (he : e ∈ m.heap) :
    e ∈ css.getD (m.bucketOf e.2.key) [] := by
  have hefl : e ∈ css.flatten := hw.heapPerm.mem_iff.mp he
  obtain ⟨cs, hcs, hecs⟩ := List.mem_flatten.mp hefl
  obtain ⟨n, hn⟩ := List.mem_iff_get.mp hcs
  have hgetd : css.getD n.1 [] = cs := by
    have h1 : css.getD n.1 [] = css.get n := by
      rw [List.getD_eq_getElem?_getD, List.getElem?_eq_getElem n.2]
      simp [List.get_eq_getElem]
    rw [h1, hn]
  have hbk : m.bucketOf e.2.key = n.1 :=
    hw.bCorrect n.1 n.2 e (by rw [hgetd]; exact hecs)
  rw [hbk, hgetd]
  exact hecs

/-- If the key's own chain has no node bearing it, no chain does. -/
lemma absent_of_chain_miss {m : UnorderedMap K V} {css} (hw : WFc m css) {k : K}
    (hf : (css.getD (m.bucketOf k) []).find? (fun e => e.2.key == k) = none) :
    ∀ e ∈ m.heap, e.2.key ≠ k := by
  intro e he hk
  have hmem := mem_chain_of_mem_heap hw he
  rw [hk] at hmem
  have := List.find?_eq_none.mp hf e hmem
  simp [hk] at this

/-- The two insert overloads compute the same function. -/
lemma insert_copy_eq_insert_move (m : UnorderedMap K V) (k : K) (v : V) :
    m.insert_copy k v = m.insert_move k v := by
  simp only [insert_copy, insert_move, insert_into_bucket]
  cases m.findPtr k with
  | none => rfl
  | some o =>
    cases o with
    | some dup => rfl
    | none =>
      dsimp only
      cases m.head with
      | none => rfl
      | some hId =>
        dsimp only
        cases hget (hput m.heap m.nextId
            (match m.bget (m.bucketOf k) with
              | none => { next := none, key := k, val := v }
              | some hd => { next := some hd, key := k, val := v })) hId with
        | none => rfl
        | some hnd =>
          rw [apply_ite (Option.map (fun (r : UnorderedMap K V × Nat) => (r.1, r.2, true)))]
          rfl

/-- Inserting an already-present key returns the found node, the
"not inserted" flag, and the state unchanged. -/
lemma insert_move_hit {m : UnorderedMap K V} {k : K} {x : Nat}
    (hf : m.findPtr k = some (some x)) (v : V) :
    m.insert_move k v = some (m, x, false) := by
  simp only [insert_move, hf]

/-- Inserting an absent key prepends a fresh node in the key's bucket and
preserves well-formedness and the head invariant. -/
lemma insert_move_miss {m : UnorderedMap K V} {css} (hw : WFc m css)
    (hh : headInv m) {k : K} (v : V)
    (habs : ∀ e ∈ m.heap, e.2.key ≠ k) :
    ∃ hd2, m.insert_move k v =
        some (insResult m (m.bucketOf k) k v hd2, m.nextId, true) ∧
      WFc (insResult m (m.bucketOf k) k v hd2)
        (css.set (m.bucketOf k)
          ((m.nextId, ⟨m.bget (m.bucketOf k), k, v⟩) :: css.getD (m.bucketOf k) [])) ∧
      headInv (insResult m (m.bucketOf k) k v hd2) := by
  obtain ⟨hd2, heq, hwf, hhi⟩ := insert_into_bucket_spec hw hh k v habs
  refine ⟨hd2, ?_, hwf, hhi⟩
  rw [insert_move, findPtr_miss hw habs, heq]
  rfl

/-- `operator[]` is `_find` followed, on a miss, by exactly the same steps
as `_insert_into_bucket` with a default value. -/
lemma indexOp_eq [Inhabited V] (m : UnorderedMap K V) (k : K) :
    m.indexOp k = (match m.findPtr k with
      | none => none
      | some (some f) => some (m, f)
      | some none => m.insert_into_bucket (m.bucketOf k) k default) := by
  simp only [indexOp, insert_into_bucket]
  cases m.findPtr k with
  | none => rfl
  | some o =>
    cases o with
    | some f => rfl
    | none =>
      have hndm : (match m.bget (m.bucketOf k) with
          | none => ({ next := none, key := k, val := (default : V) } : HashNode K V)
          | some hd => { next := some hd, key := k, val := default }) =
          (⟨m.bget (m.bucketOf k), k, default⟩ : HashNode K V) := by
        cases m.bget (m.bucketOf k) <;> rfl
      rw [hndm]

end UnorderedMap

/-! ### Effect of erasure -/

namespace UnorderedMap

variable {K V : Type} [DecidableEq K]

lemma hset_cons (e : Nat × HashNode K V) (t : Heap K V) (i : Nat) (nd : HashNode K V) :
    hset (e :: t) i nd = (if e.1 = i then (i, nd) else e) :: hset t i nd := rfl

lemma hset_eq_self_of {h : Heap K V} {i : Nat} (hni : ∀ e ∈ h, e.1 ≠ i) :
    hset h i nd = h := by
  induction h with
  | nil => rfl
  | cons e t ih =>
    rw [hset_cons, if_neg (hni e (by simp))]
    rw [ih (fun e2 he2 => hni e2 (List.mem_cons_of_mem _ he2))]

/-- Split a list at the first element bearing the key `k`. -/
lemma exists_first_split {l : List (Nat × HashNode K V)} {k : K}
    (hk : ∃ e ∈ l, e.2.key = k) :
    ∃ pre y suf, l = pre ++ y :: suf ∧ (∀ e ∈ pre, e.2.key ≠ k) ∧ y.2.key = k := by
  induction l with
  | nil => simp at hk
  | cons e t ih =>
    by_cases he : e.2.key = k
    · exact ⟨[], e, t, rfl, by simp, he⟩
    · obtain ⟨f, hf, hfk⟩ := hk
      rcases List.mem_cons.mp hf with hf | hf
      · exact absurd (hf ▸ hfk) he
      · obtain ⟨pre, y, suf, hsplit, hpre, hy⟩ := ih ⟨f, hf, hfk⟩
        refine ⟨e :: pre, y, suf, by rw [hsplit]; rfl, ?_, hy⟩
        intro e2 he2
        rcases List.mem_cons.mp he2 with he2 | he2
        · rw [he2]
          exact he
        · exact hpre e2 he2

/-- The erase-loop misses: the walked chain holds no node with key `k`
after the head, so the state is untouched and the result reports no
removal. -/
lemma eraseChainLoop_not_found {h : Heap K V} {k : K} :
    ∀ {l : List (Nat × HashNode K V)} {cur : Nat} {cnd : HashNode K V} {fuel : Nat},
      isChain h (some cur) ((cur, cnd) :: l) →
      (∀ e ∈ l, e.2.key ≠ k) →
      l.length + 1 ≤ fuel →
      eraseChainLoop k h cur fuel = some (h, false) := by
  intro l
  induction l with
  | nil =>
    intro cur cnd fuel hc _ hf
    obtain ⟨_, hg0, hnext⟩ := hc
    have hg : hget h cur = some cnd := hg0
    have hn : cnd.next = none := hnext
    match fuel, hf with
    | fuel+1, _ =>
      simp only [eraseChainLoop, hg, hn]
  | cons e t ih =>
    intro cur cnd fuel hc hne hf
    obtain ⟨_, hg0, hnext⟩ := hc
    have hg : hget h cur = some cnd := hg0
    obtain ⟨hd0, hg20, hrest⟩ := hnext
    have hd1 : cnd.next = some e.1 := hd0
    have hg2 : hget h e.1 = some e.2 := hg20
    match fuel, hf with
    | fuel+1, hf =>
      simp only [eraseChainLoop, hg, hd1, hg2]
      rw [if_neg (hne e (by simp))]
      have hchain : isChain h (some e.1) ((e.1, e.2) :: t) := ⟨rfl, hg2, hrest⟩
      exact ih hchain (fun e2 he2 => hne e2 (List.mem_cons_of_mem _ he2))
        (by simpa using hf)

/-- The erase-loop hits: the first later node bearing `k` is spliced out of
the chain and deleted; the walked chain keeps all other entries in order,
addresses outside the walked chain are untouched, and the heap contents
change exactly by the removal (stated through an arbitrary disjoint rest
`R`). -/
lemma eraseChainLoop_found {h : Heap K V} {k : K} :
    ∀ {pre : List (Nat × HashNode K V)} {cur : Nat} {cnd : HashNode K V}
      {yId : Nat} {ynd : HashNode K V} {suf : List (Nat × HashNode K V)} {fuel : Nat},
      isChain h (some cur) ((cur, cnd) :: (pre ++ (yId, ynd) :: suf)) →
      (((cur, cnd) :: (pre ++ (yId, ynd) :: suf)).map Prod.fst).Nodup →
      (∀ e ∈ pre, e.2.key ≠ k) → ynd.key = k →
      pre.length + 1 ≤ fuel →
      ∃ h2 chain2,
        eraseChainLoop k h cur fuel = some (h2, true) ∧
        isChain h2 (some cur) chain2 ∧
        chain2.map entryOf = ((cur, cnd) :: (pre ++ suf)).map entryOf ∧
        chain2.map Prod.fst = ((cur, cnd) :: (pre ++ suf)).map Prod.fst ∧
        (∀ j, j ∉ ((cur, cnd) :: (pre ++ (yId, ynd) :: suf)).map Prod.fst →
          hget h2 j = hget h j) ∧
        (∀ R : Heap K V,
          List.Perm h (((cur, cnd) :: (pre ++ (yId, ynd) :: suf)) ++ R) →
          (∀ j ∈ ((cur, cnd) :: (pre ++ (yId, ynd) :: suf)).map Prod.fst,
            j ∉ R.map Prod.fst) →
          List.Perm h2 (chain2 ++ R)) := by
  intro pre
  induction pre with
  | nil =>
    intro cur cnd yId ynd suf fuel hc hnd hpre hyk hf
    obtain ⟨_, hg0, hnext⟩ := hc
    have hg : hget h cur = some cnd := hg0
    obtain ⟨hd0, hgy0, hsuf⟩ := hnext
    have hd1 : cnd.next = some yId := hd0
    have hgy : hget h yId = some ynd := hgy0
    rw [List.nil_append] at hnd
    rw [List.map_cons, List.map_cons, List.nodup_cons, List.nodup_cons] at hnd
    obtain ⟨hcur, hy, hsufnd⟩ := hnd
    have hcy : cur ≠ yId := fun hcy => hcur (hcy ▸ List.mem_cons_self _ _)
    have hcur_suf : cur ∉ suf.map Prod.fst := fun hmem => hcur (List.mem_cons_of_mem _ hmem)
    have hcur_h : cur ∈ h.map Prod.fst := mem_ids_of_hget hg
    match fuel, hf with
    | fuel+1, _ =>
      refine ⟨hdel (hset h cur ⟨ynd.next, cnd.key, cnd.val⟩) yId,
        (cur, (⟨ynd.next, cnd.key, cnd.val⟩ : HashNode K V)) :: suf, ?_, ?_, ?_, ?_, ?_, ?_⟩
      · simp only [eraseChainLoop, hg, hd1, hgy]
        rw [if_pos hyk]
      · refine ⟨rfl, ?_, ?_⟩
        · rw [hget_hdel_ne _ hcy, hget_hset_self _ _ hcur_h]
        · refine isChain_congr hsuf ?_
          intro e2 he
          have hy2 : yId ∉ suf.map Prod.fst := hy
          have he1y : e2.1 ≠ yId := fun hh =>
            hy2 (by rw [← hh]; exact List.mem_map_of_mem Prod.fst he)
          have he1c : e2.1 ≠ cur := fun hh =>
            hcur_suf (by rw [← hh]; exact List.mem_map_of_mem Prod.fst he)
          rw [hget_hdel_ne _ he1y, hget_hset_ne _ _ he1c]
          exact isChain_mem_hget hsuf he
      · simp only [List.nil_append, List.map_cons]
        rfl
      · simp only [List.nil_append, List.map_cons]
      · intro j hj
        simp only [List.nil_append, List.map_cons, List.mem_cons] at hj
        push_neg at hj
        rw [hget_hdel_ne _ hj.2.1, hget_hset_ne _ _ hj.1]
      · intro R hperm hdisj
        rw [List.nil_append] at hperm hdisj
        have hcR : cur ∉ R.map Prod.fst := hdisj cur (by simp)
        have hyR : yId ∉ R.map Prod.fst := hdisj yId (by simp)
        have hstep1 : List.Perm (hset h cur ⟨ynd.next, cnd.key, cnd.val⟩)
            (hset (((cur, cnd) :: (yId, ynd) :: suf) ++ R) cur ⟨ynd.next, cnd.key, cnd.val⟩) :=
          hperm.map _
        have hstep2 : hset (((cur, cnd) :: (yId, ynd) :: suf) ++ R) cur
            (⟨ynd.next, cnd.key, cnd.val⟩ : HashNode K V) =
            (cur, (⟨ynd.next, cnd.key, cnd.val⟩ : HashNode K V)) :: (((yId, ynd) :: suf) ++ R) := by
          rw [List.cons_append, hset_cons, if_pos rfl]
          congr 1
          apply hset_eq_self_of
          intro e he
          rcases List.mem_cons.mp he with he | he
          · rw [he]
            exact fun hh => hcy hh.symm
          · rcases List.mem_append.mp he with he | he
            · exact fun hh => hcur_suf (by rw [← hh]; exact List.mem_map_of_mem Prod.fst he)
            · exact fun hh => hcR (by rw [← hh]; exact List.mem_map_of_mem Prod.fst he)
        have hstep4 : hdel ((cur, (⟨ynd.next, cnd.key, cnd.val⟩ : HashNode K V)) ::
            (((yId, ynd) :: suf) ++ R)) yId =
            (cur, (⟨ynd.next, cnd.key, cnd.val⟩ : HashNode K V)) :: (suf ++ R) := by
          rw [hdel_cons_ne hcy, List.cons_append, hdel_cons_self rfl]
          congr 1
          apply hdel_eq_self
          rw [List.map_append]
          intro hmem
          rcases List.mem_append.mp hmem with hmem | hmem
          · exact hy hmem
          · exact hyR hmem
        have hstep3 : List.Perm (hdel (hset h cur ⟨ynd.next, cnd.key, cnd.val⟩) yId)
            (hdel ((cur, (⟨ynd.next, cnd.key, cnd.val⟩ : HashNode K V)) ::
              (((yId, ynd) :: suf) ++ R)) yId) := by
          have h5 := hstep1.filter (fun e => e.1 != yId)
          rw [hstep2] at h5
          exact h5
        rw [hstep4] at hstep3
        simpa using hstep3
  | cons e pre ih =>
    intro cur cnd yId ynd suf fuel hc hnd hpre hyk hf
    obtain ⟨_, hg0, hnext⟩ := hc
    have hg : hget h cur = some cnd := hg0
    rw [List.cons_append] at hnext
    obtain ⟨hd0, hge0, hrest⟩ := hnext
    have hd1 : cnd.next = some e.1 := hd0
    have hge : hget h e.1 = some e.2 := hge0
    rw [List.cons_append, List.map_cons, List.nodup_cons] at hnd
    obtain ⟨hcur, hsubnd⟩ := hnd
    have hek : e.2.key ≠ k := hpre e (by simp)
    match fuel, hf with
    | fuel+1, hf =>
      have hsub : isChain h (some e.1) ((e.1, e.2) :: (pre ++ (yId, ynd) :: suf)) :=
        ⟨rfl, hge, hrest⟩
      obtain ⟨h2, chain2, heq, hch, hent, hids, hframe, hpermC⟩ :=
        @ih e.1 e.2 yId ynd suf fuel hsub hsubnd
          (fun e2 he2 => hpre e2 (List.mem_cons_of_mem _ he2)) hyk (by simpa using hf)
      refine ⟨h2, (cur, cnd) :: chain2, ?_, ?_, ?_, ?_, ?_, ?_⟩
      · simp only [eraseChainLoop, hg, hd1, hge]
        rw [if_neg hek]
        exact heq
      · refine ⟨rfl, ?_, ?_⟩
        · rw [hframe cur hcur]
          exact hg
        · rw [hd1]
          exact hch
      · rw [List.map_cons, hent, List.cons_append]
        simp
      · rw [List.map_cons, hids, List.cons_append]
        simp
      · intro j hj
        rw [List.cons_append, List.map_cons, List.mem_cons] at hj
        push_neg at hj
        exact hframe j hj.2
      · intro R hpermIn hdisj
        rw [List.cons_append] at hdisj
        have h10 : List.Perm ((cur, cnd) :: ((e :: (pre ++ (yId, ynd) :: suf)) ++ R))
            ((e :: (pre ++ (yId, ynd) :: suf)) ++ ((cur, cnd) :: R)) :=
          (List.perm_middle).symm
        have hpermSub : List.Perm h
            (((e.1, e.2) :: (pre ++ (yId, ynd) :: suf)) ++ ((cur, cnd) :: R)) := by
          refine hpermIn.trans ?_
          simpa using h10
        have hdisjSub : ∀ j ∈ ((e.1, e.2) :: (pre ++ (yId, ynd) :: suf)).map Prod.fst,
            j ∉ ((cur, cnd) :: R).map Prod.fst := by
          intro j hjmem
          rw [List.map_cons, List.mem_cons]
          push_neg
          constructor
          · intro hjc
            exact hcur (hjc ▸ hjmem)
          · exact hdisj j (by rw [List.map_cons]; exact List.mem_cons_of_mem _ hjmem)
        have hfin := hpermC ((cur, cnd) :: R) hpermSub hdisjSub
        refine hfin.trans ?_
        rw [List.cons_append]
        exact List.perm_middle

end UnorderedMap

namespace UnorderedMap

variable {K V : Type} [DecidableEq K]

lemma WFc.chain_ids_nodup {m : UnorderedMap K V} {css} (hw : WFc m css)
    {b : Nat} (hb : b < css.length) : ((css.getD b []).map Prod.fst).Nodup :=
  hw.joinIdsNodup.sublist
    ((List.sublist_flatten_of_mem (getD_mem [] hb)).map Prod.fst)

lemma WFc.decompPerm {m : UnorderedMap K V} {css} (hw : WFc m css)
    {b : Nat} (hb : b < css.length) :
    List.Perm m.heap
      (css.getD b [] ++ (css.set b ([] : List (Nat × HashNode K V))).flatten) :=
  hw.heapPerm.trans (flatten_decomp hb)

lemma WFc.decompNodup {m : UnorderedMap K V} {css} (hw : WFc m css)
    {b : Nat} (hb : b < css.length) :
    (((css.getD b []) ++
      (css.set b ([] : List (Nat × HashNode K V))).flatten).map Prod.fst).Nodup := by
  have h1 := (hw.decompPerm hb).map Prod.fst
  exact h1.nodup_iff.mp hw.idsNodup

lemma WFc.chain_cons {m : UnorderedMap K V} {css} (hw : WFc m css)
    {b : Nat} (hb : b < css.length) {cur0 : Nat} (hbg : m.bget b = some cur0) :
    ∃ nd0 rest, css.getD b [] = (cur0, nd0) :: rest ∧
      hget m.heap cur0 = some nd0 ∧ isChain m.heap nd0.next rest := by
  have hc := hw.chainsOk b hb
  cases hchain : css.getD b [] with
  | nil =>
    rw [hchain] at hc
    rw [hc] at hbg
    exact absurd hbg (by simp)
  | cons e rest =>
    rw [hchain] at hc
    obtain ⟨hp, hg, hrest⟩ := hc
    rw [hbg] at hp
    injection hp with hp
    have he : e = (cur0, e.2) := by
      rw [Prod.ext_iff]
      exact ⟨hp.symm, rfl⟩
    refine ⟨e.2, rest, by rw [← he], ?_, hrest⟩
    rw [hp]
    exact hg

/-- Non-target chains keep their interpretation when the target chain's
addresses are the only ones touched. -/
lemma WFc.other_chains {m : UnorderedMap K V} {css} (hw : WFc m css)
    {b : Nat} (hb : b < css.length) {h2 : Heap K V}
    (hframe : ∀ j, j ∉ (css.getD b []).map Prod.fst → hget h2 j = hget m.heap j) :
    ∀ c, c < css.length → c ≠ b → isChain h2 (m.bget c) (css.getD c []) := by
  intro c hc hcb
  refine isChain_congr (hw.chainsOk c hc) ?_
  intro e he
  have hne : e.1 ∉ (css.getD b []).map Prod.fst := by
    intro hmem
    obtain ⟨f, hf, hf1⟩ := List.mem_map.mp hmem
    have hnodup := hw.decompNodup hb
    rw [List.map_append] at hnodup
    have hdisj := List.disjoint_of_nodup_append hnodup
    have hfb : f.1 ∈ (css.getD b []).map Prod.fst := List.mem_map_of_mem Prod.fst hf
    have heo : e.1 ∈ ((css.set b ([] : List (Nat × HashNode K V))).flatten).map Prod.fst := by
      apply List.mem_map_of_mem Prod.fst
      apply List.mem_flatten.mpr
      refine ⟨(css.set b ([] : List (Nat × HashNode K V))).getD c [], ?_, ?_⟩
      · apply getD_mem
        simpa using hc
      · rw [getD_set_ne _ _ _ _ _ hcb]
        exact he
    rw [hf1] at hfb
    exact hdisj hfb heo
  rw [hframe e.1 hne]
  exact isChain_mem_hget (hw.chainsOk c hc) he

end UnorderedMap

namespace UnorderedMap

variable {K V : Type} [DecidableEq K]

lemma WFc.id_lt_of_mem_ids {m : UnorderedMap K V} {css} (hw : WFc m css)
    {j : Nat} (hj : j ∈ m.heap.map Prod.fst) : j < m.nextId := by
  obtain ⟨e, he, he1⟩ := List.mem_map.mp hj
  rw [← he1]
  exact hw.idsLt e he

lemma map_key_eq_of_map_entry {l l2 : List (Nat × HashNode K V)}
    (h : l.map entryOf = l2.map entryOf) :
    l.map (fun e => e.2.key) = l2.map (fun e => e.2.key) := by
  have h1 : l.map (fun e => e.2.key) = (l.map entryOf).map Prod.fst := by
    rw [List.map_map]
    rfl
  have h2 : l2.map (fun e => e.2.key) = (l2.map entryOf).map Prod.fst := by
    rw [List.map_map]
    rfl
  rw [h1, h2, h]

/-- `erase(key)`, whenever it completes, preserves well-formedness and the
canonical-head invariant. -/
lemma erase_key_pres {m : UnorderedMap K V} {css} (hw : WFc m css) (hh : headInv m)
    {k : K} {r : UnorderedMap K V × Nat} (heq : m.erase_key k = some r) :
    WF r.1 ∧ headInv r.1 := by
  have hbl : m.bucketOf k < css.length := hw.bLt k
  have hbkl : m.bucketOf k < m.buckets.length := by
    rw [hw.bkLen]
    rw [hw.cssLen] at hbl
    exact hbl
  cases hbg : m.bget (m.bucketOf k) with
  | none =>
    simp only [erase_key, hbg] at heq
    exact Option.noConfusion heq
  | some cur0 =>
    obtain ⟨nd0, rest, hchain, hg0, hrest⟩ := hw.chain_cons hbl hbg
    have hcnodup0 : (((cur0, nd0) :: rest).map Prod.fst).Nodup := by
      rw [← hchain]
      exact hw.chain_ids_nodup hbl
    have hcnodup := hcnodup0
    rw [List.map_cons, List.nodup_cons] at hcnodup
    obtain ⟨hc0rest, hrestnd⟩ := hcnodup
    have hc0r : cur0 ∉ rest.map Prod.fst := hc0rest
    have hcur0_heap : cur0 ∈ m.heap.map Prod.fst := mem_ids_of_hget hg0
    have hRdisj : ∀ j, j ∈ (css.getD (m.bucketOf k) []).map Prod.fst →
        j ∉ ((css.set (m.bucketOf k) ([] : List (Nat × HashNode K V))).flatten).map Prod.fst := by
      have hnodup := hw.decompNodup hbl
      rw [List.map_append] at hnodup
      exact fun j hj => List.disjoint_of_nodup_append hnodup hj
    by_cases hk0 : nd0.key = k
    · -- the chain head bears the key: unlink it, repair `_head` when needed
      simp only [erase_key, hbg, hg0, if_pos hk0] at heq
      cases heq
      constructor
      · -- well-formedness with the chain's tail at the target bucket
        refine ⟨css.set (m.bucketOf k) rest, hw.bcPos, ?_, ?_, ?_, ?_, ?_, ?_, ?_, ?_, ?_⟩
        · simpa using hw.bkLen
        · simpa using hw.cssLen
        · intro c hc
          rw [List.length_set] at hc
          by_cases hcb : c = m.bucketOf k
          · subst hcb
            show isChain _ ((m.buckets.set (m.bucketOf k) nd0.next).getD (m.bucketOf k) none)
              ((css.set (m.bucketOf k) rest).getD (m.bucketOf k) [])
            rw [getD_set_self _ hbkl, getD_set_self _ hbl]
            refine isChain_congr hrest ?_
            intro e he
            have hne : e.1 ≠ cur0 := fun hne =>
              hc0r (by rw [← hne]; exact List.mem_map_of_mem Prod.fst he)
            rw [hget_hdel_ne _ hne]
            exact isChain_mem_hget hrest he
          · show isChain _ ((m.buckets.set (m.bucketOf k) nd0.next).getD c none) _
            rw [getD_set_ne _ _ _ _ _ hcb, getD_set_ne _ _ _ _ _ hcb]
            refine hw.other_chains hbl ?_ c hc hcb
            intro j hj
            have hjc : j ≠ cur0 := fun hjc => hj (by
              rw [hjc, hchain]
              exact List.mem_map_of_mem Prod.fst (List.mem_cons_self _ _))
            exact hget_hdel_ne _ hjc
        · -- heapPerm
          have hp1 : List.Perm (hdel m.heap cur0)
              (hdel (css.getD (m.bucketOf k) [] ++
                (css.set (m.bucketOf k) ([] : List (Nat × HashNode K V))).flatten) cur0) :=
            (hw.decompPerm hbl).filter _
          have hp2 : hdel (css.getD (m.bucketOf k) [] ++
              (css.set (m.bucketOf k) ([] : List (Nat × HashNode K V))).flatten) cur0 =
              rest ++ (css.set (m.bucketOf k) ([] : List (Nat × HashNode K V))).flatten := by
            show List.filter _ _ = _
            rw [List.filter_append]
            have hc1 : List.filter (fun e => e.1 != cur0) (css.getD (m.bucketOf k) []) = rest := by
              rw [hchain]
              show hdel ((cur0, nd0) :: rest) cur0 = rest
              rw [hdel_cons_self rfl]
              exact hdel_eq_self hc0r
            have hc2 : List.filter (fun e => e.1 != cur0)
                ((css.set (m.bucketOf k) ([] : List (Nat × HashNode K V))).flatten) =
                (css.set (m.bucketOf k) ([] : List (Nat × HashNode K V))).flatten := by
              apply hdel_eq_self
              intro hmem
              exact hRdisj cur0 (by
                rw [hchain]
                exact List.mem_map_of_mem Prod.fst (List.mem_cons_self _ _)) hmem
            rw [hc1, hc2]
          rw [hp2] at hp1
          exact hp1.trans (flatten_set_perm rest css _ hbl).symm
        · -- joinIdsNodup
          have hperm := (flatten_set_perm rest css _ hbl).map Prod.fst
          rw [hperm.nodup_iff, List.map_append]
          refine List.Nodup.append hrestnd ?_ ?_
          · have hnodup := hw.decompNodup hbl
            rw [List.map_append] at hnodup
            exact (List.nodup_append.mp hnodup).2.1
          · intro j hj1 hj2
            refine hRdisj j ?_ hj2
            rw [hchain, List.map_cons]
            exact List.mem_cons_of_mem _ hj1
        · -- bCorrect
          intro c hc e he
          rw [List.length_set] at hc
          show m.bucketOf e.2.key = c
          by_cases hcb : c = m.bucketOf k
          · subst hcb
            rw [getD_set_self _ hbl] at he
            refine hw.bCorrect _ hc e ?_
            rw [hchain]
            exact List.mem_cons_of_mem _ he
          · rw [getD_set_ne _ _ _ _ _ hcb] at he
            exact hw.bCorrect c hc e he
        · -- keysNodup
          have hperm := (flatten_set_perm rest css _ hbl).map (fun e => e.2.key)
          rw [hperm.nodup_iff, List.map_append]
          have hkold : ((css.getD (m.bucketOf k) [] ++
              (css.set (m.bucketOf k) ([] : List (Nat × HashNode K V))).flatten).map
                (fun e => e.2.key)).Nodup := by
            have h1 := ((flatten_decomp hbl).map (fun e => e.2.key)).nodup_iff
            exact h1.mp hw.keysNodup
          rw [List.map_append, hchain, List.map_cons] at hkold
          rw [List.cons_append, List.nodup_cons] at hkold
          exact hkold.2
        · -- sizeOk
          show m.size - 1 = (hdel m.heap cur0).length
          have := length_hdel hw.idsNodup hcur0_heap
          have := hw.sizeOk
          omega
        · -- idsLt
          intro e he
          exact hw.idsLt e ((hdel_sublist m.heap cur0).subset he)
      · -- head repair
        show (if m.head = some cur0 then m.iterSucc nd0 else m.head) =
          firstLive (m.buckets.set (m.bucketOf k) nd0.next)
        have hbb : m.bucketOf nd0.key = m.bucketOf k := by
          have := hw.bCorrect _ hbl (cur0, nd0) (by rw [hchain]; exact List.mem_cons_self _ _)
          exact this
        by_cases hhd : m.head = some cur0
        · rw [if_pos hhd]
          have hfl : firstLive m.buckets = some cur0 := by rw [← hh, hhd]
          obtain ⟨j, hjlen, hjx, hpre⟩ := firstLive_spec hfl
          have hjb : j = m.bucketOf k := by
            by_contra hjb
            have hjcss : j < css.length := by
              rw [hw.cssLen]
              rw [hw.bkLen] at hjlen
              exact hjlen
            obtain ⟨ndJ, restJ, hchainJ, _, _⟩ := hw.chain_cons hjcss hjx
            have hmemJ : ((cur0, ndJ) : Nat × HashNode K V) ∈
                (css.set (m.bucketOf k) ([] : List (Nat × HashNode K V))).flatten := by
              apply List.mem_flatten.mpr
              refine ⟨(css.set (m.bucketOf k) ([] : List (Nat × HashNode K V))).getD j [], ?_, ?_⟩
              · apply getD_mem
                simpa using hjcss
              · rw [getD_set_ne _ _ _ _ _ hjb, hchainJ]
                exact List.mem_cons_self _ _
            refine hRdisj cur0 ?_ (List.mem_map_of_mem Prod.fst hmemJ)
            rw [hchain]
            exact List.mem_map_of_mem Prod.fst (List.mem_cons_self _ _)
          subst hjb
          cases hnx : nd0.next with
          | none =>
            have hsucc : m.iterSucc nd0 = firstLive (m.buckets.drop (m.bucketOf k + 1)) := by
              simp only [iterSucc, hnx, hbb]
            rw [hsucc, firstLive_set_none hbkl hpre]
          | some q =>
            have hsucc : m.iterSucc nd0 = some q := by
              simp only [iterSucc, hnx]
            rw [hsucc, firstLive_set_some hbkl hpre]
        · rw [if_neg hhd]
          cases hm2 : m.head with
          | none =>
            have hfl : firstLive m.buckets = none := by rw [← hh, hm2]
            have hall := (firstLive_eq_none_iff _).mp hfl
            have := hall _ (getD_mem none hbkl)
            rw [show m.buckets.getD (m.bucketOf k) none = m.bget (m.bucketOf k) from rfl,
              hbg] at this
            exact absurd this (by simp)
          | some hId =>
            have hfl : firstLive m.buckets = some hId := by rw [← hh, hm2]
            obtain ⟨j, hjlen, hjx, hpre⟩ := firstLive_spec hfl
            have hjb : j ≠ m.bucketOf k := by
              intro hjb
              rw [hjb] at hjx
              rw [show m.buckets.getD (m.bucketOf k) none = m.bget (m.bucketOf k) from rfl,
                hbg] at hjx
              injection hjx with hjx
              rw [← hjx] at hm2
              exact hhd hm2
            have hjlt : j < m.bucketOf k := by
              rcases Nat.lt_or_ge j (m.bucketOf k) with h1 | h1
              · exact h1
              · exfalso
                have hblt : m.bucketOf k < j := lt_of_le_of_ne h1 (fun hh2 => hjb hh2.symm)
                have := hpre _ hblt
                rw [show m.buckets.getD (m.bucketOf k) none = m.bget (m.bucketOf k) from rfl,
                  hbg] at this
                exact absurd this (by simp)
            rw [firstLive_set_of_lt _ hjlt hjx hpre]
    · -- the key is not at the chain head: run the splice loop
      simp only [erase_key, hbg, hg0, if_neg hk0] at heq
      have hchainOk : isChain m.heap (some cur0) ((cur0, nd0) :: rest) := by
        rw [← hchain, ← hbg]
        exact hw.chainsOk _ hbl
      by_cases hex : ∃ e ∈ rest, e.2.key = k
      · -- found later in the chain
        obtain ⟨pre, y, suf, hsplit, hpreK, hyk⟩ := exists_first_split hex
        have hlen : ((cur0, nd0) :: rest).length ≤ m.heap.length := by
          rw [← hchain]
          exact hw.chain_length_le hbl
        subst hsplit
        have hychain : isChain m.heap (some cur0)
            ((cur0, nd0) :: (pre ++ (y.1, y.2) :: suf)) := by
          simpa using hchainOk
        have hynodup : (((cur0, nd0) :: (pre ++ (y.1, y.2) :: suf)).map Prod.fst).Nodup := by
          simpa using hcnodup0
        have hfl : pre.length + 1 ≤ m.heap.length := by
          simp only [List.length_cons, List.length_append] at hlen ⊢
          omega
        obtain ⟨h2, chain2, hloopEq, hch2, hent2, hids2, hframe2, hperm2⟩ :=
          eraseChainLoop_found hychain hynodup hpreK hyk hfl
        rw [hloopEq] at heq
        cases heq
        have hRperm : List.Perm m.heap
            (((cur0, nd0) :: (pre ++ (y.1, y.2) :: suf)) ++
              (css.set (m.bucketOf k) ([] : List (Nat × HashNode K V))).flatten) := by
          have := hw.decompPerm hbl
          rw [hchain] at this
          simpa using this
        have hRdisj2 : ∀ j ∈ ((cur0, nd0) :: (pre ++ (y.1, y.2) :: suf)).map Prod.fst,
            j ∉ ((css.set (m.bucketOf k) ([] : List (Nat × HashNode K V))).flatten).map
              Prod.fst := by
          intro j hj
          refine hRdisj j ?_
          rw [hchain]
          simpa using hj
        have hP2 := hperm2 _ hRperm hRdisj2
        have hsubL : List.Sublist ((cur0, nd0) :: (pre ++ suf))
            ((cur0, nd0) :: (pre ++ (y.1, y.2) :: suf)) :=
          ((List.sublist_cons_self (y.1, y.2) suf).append_left pre).cons₂ _
        have hsubIds : List.Sublist (chain2.map Prod.fst)
            (((cur0, nd0) :: (pre ++ (y.1, y.2) :: suf)).map Prod.fst) := by
          rw [hids2]
          exact hsubL.map Prod.fst
        have hkeyEq : chain2.map (fun e => e.2.key) =
            ((cur0, nd0) :: (pre ++ suf)).map (fun e => e.2.key) :=
          map_key_eq_of_map_entry hent2
        have hsubKeys : List.Sublist (chain2.map (fun e => e.2.key))
            (((cur0, nd0) :: (pre ++ (y.1, y.2) :: suf)).map (fun e => e.2.key)) := by
          rw [hkeyEq]
          exact hsubL.map _
        have hRidsNodup : (((css.set (m.bucketOf k)
            ([] : List (Nat × HashNode K V))).flatten).map Prod.fst).Nodup := by
          have hnodup := hw.decompNodup hbl
          rw [List.map_append] at hnodup
          exact (List.nodup_append.mp hnodup).2.1
        have hfullIds : ((cur0, nd0) :: (pre ++ (y.1, y.2) :: suf)).map Prod.fst =
            (css.getD (m.bucketOf k) []).map Prod.fst := by
          rw [hchain]
        have hKold : (((css.getD (m.bucketOf k) []).map (fun e => e.2.key)) ++
            (((css.set (m.bucketOf k) ([] : List (Nat × HashNode K V))).flatten).map
              (fun e => e.2.key))).Nodup := by
          have h1 := ((flatten_decomp hbl).map (fun e => e.2.key)).nodup_iff
          rw [List.map_append] at h1
          exact h1.mp hw.keysNodup
        constructor
        · refine ⟨css.set (m.bucketOf k) chain2, hw.bcPos, hw.bkLen, ?_, ?_, ?_, ?_, ?_, ?_, ?_, ?_⟩
          · simpa using hw.cssLen
          · intro c hc
            rw [List.length_set] at hc
            by_cases hcb : c = m.bucketOf k
            · subst hcb
              show isChain h2 (m.bget (m.bucketOf k))
                ((css.set (m.bucketOf k) chain2).getD (m.bucketOf k) [])
              rw [getD_set_self _ hbl, hbg]
              exact hch2
            · show isChain h2 (m.bget c) ((css.set (m.bucketOf k) chain2).getD c [])
              rw [getD_set_ne _ _ _ _ _ hcb]
              refine hw.other_chains hbl ?_ c hc hcb
              intro j hj
              refine hframe2 j ?_
              rw [hfullIds]
              exact hj
          · exact hP2.trans (flatten_set_perm chain2 css _ hbl).symm
          · have hperm := (flatten_set_perm chain2 css _ hbl).map Prod.fst
            rw [hperm.nodup_iff, List.map_append]
            refine List.Nodup.append (hynodup.sublist hsubIds) hRidsNodup ?_
            intro j hj1 hj2
            exact hRdisj2 j (hsubIds.subset hj1) hj2
          · intro c hc e he
            rw [List.length_set] at hc
            show m.bucketOf e.2.key = c
            by_cases hcb : c = m.bucketOf k
            · subst hcb
              rw [getD_set_self _ hbl] at he
              have hee : entryOf e ∈ chain2.map entryOf := List.mem_map_of_mem entryOf he
              rw [hent2] at hee
              obtain ⟨f, hf, hfe⟩ := List.mem_map.mp hee
              have hkey : f.2.key = e.2.key := congrArg Prod.fst hfe
              rw [← hkey]
              refine hw.bCorrect _ hc f ?_
              rw [hchain]
              exact hsubL.subset hf
            · rw [getD_set_ne _ _ _ _ _ hcb] at he
              exact hw.bCorrect c hc e he
          · have hperm := (flatten_set_perm chain2 css _ hbl).map (fun e => e.2.key)
            rw [hperm.nodup_iff, List.map_append]
            have hfullK : ((cur0, nd0) :: (pre ++ (y.1, y.2) :: suf)).map (fun e => e.2.key) =
                (css.getD (m.bucketOf k) []).map (fun e => e.2.key) := by
              rw [hchain]
            refine List.Nodup.append ?_ ?_ ?_
            · refine List.Nodup.sublist hsubKeys ?_
              rw [hfullK]
              exact (List.nodup_append.mp hKold).1
            · exact (List.nodup_append.mp hKold).2.1
            · intro x hx1 hx2
              have hx3 : x ∈ (css.getD (m.bucketOf k) []).map (fun e => e.2.key) := by
                rw [← hfullK]
                exact hsubKeys.subset hx1
              exact (List.nodup_append.mp hKold).2.2 hx3 hx2
          · show m.size - 1 = h2.length
            have hlen2 := hP2.length_eq
            have hlen3 := hRperm.length_eq
            have hlenc : chain2.length = ((cur0, nd0) :: (pre ++ suf)).length := by
              have := congrArg List.length hids2
              simpa using this
            simp only [List.length_append, List.length_cons] at hlen2 hlen3 hlenc
            have := hw.sizeOk
            omega
          · intro e he
            have hmem := hP2.mem_iff.mp he
            rcases List.mem_append.mp hmem with hmem | hmem
            · have hid : e.1 ∈ (css.getD (m.bucketOf k) []).map Prod.fst := by
                rw [← hfullIds]
                exact hsubIds.subset (List.mem_map_of_mem Prod.fst hmem)
              obtain ⟨f, hf, hf1⟩ := List.mem_map.mp hid
              rw [← hf1]
              exact hw.idsLt f (hw.heapPerm.mem_iff.mpr (hw.chain_mem_flatten hbl hf))
            · have hfm : e ∈ css.flatten := by
                refine (flatten_decomp hbl).mem_iff.mpr ?_
                exact List.mem_append_right _ hmem
              exact hw.idsLt e (hw.heapPerm.mem_iff.mpr hfm)
        · show m.head = firstLive m.buckets
          exact hh
      · -- the key occurs nowhere in the chain: no removal, state unchanged
        push_neg at hex
        have hlen : ((cur0, nd0) :: rest).length ≤ m.heap.length := by
          rw [← hchain]
          exact hw.chain_length_le hbl
        have hfl : rest.length + 1 ≤ m.heap.length := by
          simp only [List.length_cons] at hlen
          omega
        have hnf := eraseChainLoop_not_found hchainOk hex hfl
        rw [hnf] at heq
        cases heq
        exact ⟨⟨css, hw⟩, hh⟩

end UnorderedMap


namespace UnorderedMap

variable {K V : Type} [DecidableEq K]

/-- Both insert overloads preserve well-formedness and the head invariant. -/
lemma insert_move_pres {m : UnorderedMap K V} {css} (hw : WFc m css) (hh : headInv m)
    {k : K} {v : V} {r : UnorderedMap K V × Nat × Bool}
    (heq : m.insert_move k v = some r) : WF r.1 ∧ headInv r.1 := by
  have hfp := findPtr_eq hw k
  cases hfind : (css.getD (m.bucketOf k) []).find? (fun e => e.2.key == k) with
  | some f =>
    rw [hfind, Option.map_some'] at hfp
    rw [insert_move_hit hfp v] at heq
    cases heq
    exact ⟨⟨css, hw⟩, hh⟩
  | none =>
    have habs := absent_of_chain_miss hw hfind
    obtain ⟨hd2, heq2, hwf2, hh2⟩ := insert_move_miss hw hh v habs
    rw [heq2] at heq
    cases heq
    exact ⟨⟨_, hwf2⟩, hh2⟩

lemma insert_copy_pres {m : UnorderedMap K V} {css} (hw : WFc m css) (hh : headInv m)
    {k : K} {v : V} {r : UnorderedMap K V × Nat × Bool}
    (heq : m.insert_copy k v = some r) : WF r.1 ∧ headInv r.1 := by
  rw [insert_copy_eq_insert_move] at heq
  exact insert_move_pres hw hh heq

/-- `operator[]` preserves well-formedness and the head invariant. -/
lemma indexOp_pres [Inhabited V] {m : UnorderedMap K V} {css} (hw : WFc m css)
    (hh : headInv m) {k : K} {r : UnorderedMap K V × Nat}
    (heq : m.indexOp k = some r) : WF r.1 ∧ headInv r.1 := by
  rw [indexOp_eq] at heq
  have hfp := findPtr_eq hw k
  cases hfind : (css.getD (m.bucketOf k) []).find? (fun e => e.2.key == k) with
  | some f =>
    rw [hfind, Option.map_some'] at hfp
    rw [hfp] at heq
    cases heq
    exact ⟨⟨css, hw⟩, hh⟩
  | none =>
    rw [hfind] at hfp
    have habs := absent_of_chain_miss hw hfind
    obtain ⟨hd2, heq2, hwf2, hh2⟩ := insert_into_bucket_spec hw hh k default habs
    rw [hfp] at heq
    show WF r.1 ∧ headInv r.1
    rw [show ((some (Option.map Prod.fst (none : Option (Nat × HashNode K V)))) :
      Option (Option Nat)) = some none from rfl] at hfp
    rw [heq2] at heq
    cases heq
    exact ⟨⟨_, hwf2⟩, hh2⟩

/-- Table states reachable from the constructor by the mutating operations
the claims exercise: both insert overloads, `operator[]`, and `erase(key)`
(runs that complete without a fault). -/
inductive Reach [Inhabited V] : UnorderedMap K V → Prop
  | mk (hashF : K → Nat) (hint : Nat) : Reach (mkMap hashF hint)
  | insM {m m2 i fl k v} : Reach m → m.insert_move k v = some (m2, i, fl) → Reach m2
  | insC {m m2 i fl k v} : Reach m → m.insert_copy k v = some (m2, i, fl) → Reach m2
  | idx {m m2 i k} : Reach m → m.indexOp k = some (m2, i) → Reach m2
  | ers {m m2 n k} : Reach m → m.erase_key k = some (m2, n) → Reach m2

lemma next_greater_prime_pos (n : Nat) : 0 < next_greater_prime n := by
  have h1 : ∀ fuel s, 1 ≤ s → 1 ≤ primeSearch s fuel := by
    intro fuel
    induction fuel with
    | zero => intro s hs; exact hs
    | succ fuel ih =>
      intro s hs
      rw [primeSearch]
      by_cases hp : isPrimeB s
      · rw [if_pos hp]; exact hs
      · rw [if_neg hp]; exact ih (s+1) (by omega)
  exact h1 _ _ (le_max_right _ _)

/-- The constructor's state is well-formed with all chains empty. -/
lemma mkMap_wf (hashF : K → Nat) (hint : Nat) :
    WFc (mkMap (V := V) hashF hint)
      (List.replicate (next_greater_prime hint) []) ∧
    headInv (mkMap (V := V) hashF hint) := by
  constructor
  · refine ⟨next_greater_prime_pos hint, by simp [mkMap], by simp [mkMap], ?_, ?_, ?_, ?_, ?_, rfl, ?_⟩
    · intro b hb
      show isChain [] ((List.replicate (next_greater_prime hint) none).getD b none) _
      rw [List.length_replicate] at hb
      have h1 : (List.replicate (next_greater_prime hint) (none : Option Nat)).getD b none =
          none := by
        rw [List.getD_eq_getElem?_getD, List.getElem?_replicate, if_pos hb]
        rfl
      have h2 : (List.replicate (next_greater_prime hint)
          ([] : List (Nat × HashNode K V))).getD b [] = [] := by
        rw [List.getD_eq_getElem?_getD, List.getElem?_replicate, if_pos hb]
        rfl
      rw [h1, h2]
      rfl
    · show List.Perm [] _
      have : (List.replicate (next_greater_prime hint)
          ([] : List (Nat × HashNode K V))).flatten = [] := by
        rw [List.flatten_eq_nil_iff]
        intro l hl
        exact List.eq_of_mem_replicate hl
      rw [this]
    · have : (List.replicate (next_greater_prime hint)
          ([] : List (Nat × HashNode K V))).flatten = [] := by
        rw [List.flatten_eq_nil_iff]
        intro l hl
        exact List.eq_of_mem_replicate hl
      rw [this]
      exact List.nodup_nil
    · intro b hb e he
      rw [List.length_replicate] at hb
      have h2 : (List.replicate (next_greater_prime hint)
          ([] : List (Nat × HashNode K V))).getD b [] = [] := by
        rw [List.getD_eq_getElem?_getD, List.getElem?_replicate, if_pos hb]
        rfl
      rw [h2] at he
      exact absurd he (by simp)
    · have : (List.replicate (next_greater_prime hint)
          ([] : List (Nat × HashNode K V))).flatten = [] := by
        rw [List.flatten_eq_nil_iff]
        intro l hl
        exact List.eq_of_mem_replicate hl
      rw [this]
      exact List.nodup_nil
    · intro e he
      exact absurd he (by simp [mkMap])
  · show (none : Option Nat) = firstLive (List.replicate (next_greater_prime hint) none)
    symm
    rw [firstLive_eq_none_iff]
    intro x hx
    exact List.eq_of_mem_replicate hx

/-- Every reachable state is well-formed and satisfies the head invariant. -/
lemma reach_wf [Inhabited V] {m : UnorderedMap K V} (hr : Reach m) :
    WF m ∧ headInv m := by
  induction hr with
  | mk hashF hint => exact ⟨⟨_, (mkMap_wf hashF hint).1⟩, (mkMap_wf hashF hint).2⟩
  | insM hre heq ih =>
    obtain ⟨⟨css, hw⟩, hh⟩ := ih
    exact insert_move_pres hw hh heq
  | insC hre heq ih =>
    obtain ⟨⟨css, hw⟩, hh⟩ := ih
    exact insert_copy_pres hw hh heq
  | idx hre heq ih =>
    obtain ⟨⟨css, hw⟩, hh⟩ := ih
    exact indexOp_pres hw hh heq
  | ers hre heq ih =>
    obtain ⟨⟨css, hw⟩, hh⟩ := ih
    exact erase_key_pres hw hh heq

end UnorderedMap

namespace UnorderedMap

variable {K V : Type} [DecidableEq K]

/-- Under the head invariant, the head reference is null exactly when the
table holds no nodes. -/
lemma head_none_iff_empty {m : UnorderedMap K V} {css} (hw : WFc m css)
    (hh : headInv m) : m.head = none ↔ m.size = 0 := by
  constructor
  · intro h0
    have hfl : firstLive m.buckets = none := by rw [← hh, h0]
    have hall := (firstLive_eq_none_iff _).mp hfl
    have hflat : css.flatten = [] := by
      rw [List.flatten_eq_nil_iff]
      intro cs hcs
      obtain ⟨n, hn⟩ := List.mem_iff_get.mp hcs
      have hgetd : css.getD n.1 [] = cs := by
        rw [List.getD_eq_getElem?_getD, List.getElem?_eq_getElem n.2]
        rw [← List.get_eq_getElem, hn]
        rfl
      have hc := hw.chainsOk n.1 n.2
      rw [hgetd] at hc
      have hbn : m.bget n.1 = none := by
        show m.buckets.getD n.1 none = none
        apply hall
        apply getD_mem
        rw [hw.bkLen, ← hw.cssLen]
        exact n.2
      rw [hbn] at hc
      cases cs with
      | nil => rfl
      | cons e t => exact absurd hc.1 (by simp)
    have : m.heap.length = 0 := by
      have := hw.heapPerm.length_eq
      rw [hflat] at this
      simpa using this
    rw [hw.sizeOk, this]
  · intro h0
    have hheap : m.heap = [] := by
      have := hw.sizeOk
      rw [h0] at this
      exact List.length_eq_zero.mp this.symm
    cases hm : m.head with
    | none => rfl
    | some hId =>
      exfalso
      have hfl : firstLive m.buckets = some hId := by rw [← hh, hm]
      obtain ⟨j, hjlen, hjx, _⟩ := firstLive_spec hfl
      have hjcss : j < css.length := by
        rw [hw.cssLen]
        rw [hw.bkLen] at hjlen
        exact hjlen
      obtain ⟨nd0, rest, _, hg0, _⟩ := hw.chain_cons hjcss hjx
      rw [hheap] at hg0
      exact absurd hg0 (by simp [hget])

end UnorderedMap

/-! ### C1 -/

/-- C1 (amended): for every table reached from the constructor by any
sequence of completing insert (either overload), index-operator, and
erase-by-key operations, the canonical head reference `_head` equals the
chain-head pointer of the lowest-indexed non-empty bucket, and is null
exactly when the table is empty.  (The original claim also asserted this at
post-`clear()` boundaries, which the code falsifies: see the
counterexample.) -/
theorem C1_head_invariant {K V : Type} [DecidableEq K] [Inhabited V]
    {m : UnorderedMap K V} (hr : UnorderedMap.Reach m) :
    m.head = UnorderedMap.firstLive m.buckets ∧ (m.head = none ↔ m.size = 0) := by
  obtain ⟨⟨css, hw⟩, hh⟩ := UnorderedMap.reach_wf hr
  exact ⟨hh, UnorderedMap.head_none_iff_empty hw hh⟩

/-- C1 witness: the invariant holds for the concrete table obtained by
inserting `(0, 5)` (rvalue overload) into a freshly constructed 2-bucket
table. -/
theorem C1_head_invariant_witness :
    mEx1.head = UnorderedMap.firstLive mEx1.buckets ∧
      (mEx1.head = none ↔ mEx1.size = 0) :=
  C1_head_invariant (UnorderedMap.Reach.insM (UnorderedMap.Reach.mk (fun k => k) 1) mEx1_run)

/-- C1 counterexample (to the claim as frozen): after `clear()` — one of the
claim's listed observable boundaries — the table holds no node and `_size`
is zero, yet the canonical head reference still holds the freed address 0
rather than none, so it neither denotes a live chain head nor satisfies
"none exactly when the table is empty". -/
theorem C1_head_invariant_cex :
    mEx0.insert_move 0 5 = some (mEx1, 0, true) ∧
      mEx1.clear = some mExC ∧
      mExC.size = 0 ∧ mExC.heap = [] ∧ mExC.head ≠ none :=
  ⟨rfl, rfl, rfl, rfl, by decide⟩

/-! ### Canonical traversal -/

namespace UnorderedMap

variable {K V : Type} [DecidableEq K]

/-- Walking one non-empty chain with `operator++` visits its entries in
order and then continues at the next non-empty bucket. -/
lemma traverseFrom_chain {m : UnorderedMap K V} {n : Nat} :
    ∀ {l : List (Nat × HashNode K V)} {p : Option Nat} {fuel : Nat} {KK : List (K × V)},
      isChain m.heap p l → l ≠ [] →
      (∀ e ∈ l, m.bucketOf e.2.key = n) →
      l.length ≤ fuel →
      m.traverseFrom (firstLive (m.buckets.drop (n + 1))) (fuel - l.length) = some KK →
      m.traverseFrom p fuel = some (l.map entryOf ++ KK) := by
  intro l
  induction l with
  | nil =>
    intro p fuel KK _ hne
    exact absurd rfl hne
  | cons e t ih =>
    intro p fuel KK hc _ hbkt hlen hK
    obtain ⟨hp, hg0, hrest⟩ := hc
    have hg : hget m.heap e.1 = some e.2 := hg0
    subst hp
    match fuel, hlen with
    | fuel+1, hlen =>
      cases t with
      | nil =>
        have hnx : e.2.next = none := hrest
        have hbe : m.bucketOf e.2.key = n := hbkt e (by simp)
        have hsucc : m.iterSucc e.2 = firstLive (m.buckets.drop (n + 1)) := by
          simp only [iterSucc, hnx, hbe]
        have hK2 : m.traverseFrom (firstLive (m.buckets.drop (n + 1))) fuel = some KK := by
          simpa using hK
        simp only [traverseFrom, hg, hsucc, hK2]
        rfl
      | cons f t2 =>
        have hnx : e.2.next = some f.1 := hrest.1
        have hsucc : m.iterSucc e.2 = some f.1 := by
          simp only [iterSucc, hnx]
        have hchain2 : isChain m.heap (some f.1) (f :: t2) := by
          rw [← hnx]
          exact hrest
        have ihr := @ih (some f.1) fuel KK hchain2 (by simp)
          (fun e2 he2 => hbkt e2 (List.mem_cons_of_mem _ he2))
          (by simpa using hlen)
          (by simpa [Nat.succ_sub_succ] using hK)
        simp only [traverseFrom, hg, hsucc, ihr]
        rfl

/-- Canonical traversal started at the first non-empty bucket at or after
index `n` visits the chains of buckets `n, n+1, ...` in order. -/
lemma traverseFrom_buckets {m : UnorderedMap K V} {css} (hw : WFc m css) :
    ∀ dn n, n + dn = css.length →
      ∀ fuel, ((css.drop n).flatten).length ≤ fuel →
      m.traverseFrom (firstLive (m.buckets.drop n)) fuel =
        some (((css.drop n).map (List.map entryOf)).flatten) := by
  intro dn
  induction dn with
  | zero =>
    intro n hn fuel _
    have h1 : css.drop n = [] := by
      rw [List.drop_eq_nil_iff]
      omega
    have h2 : m.buckets.drop n = [] := by
      rw [List.drop_eq_nil_iff, hw.bkLen, ← hw.cssLen]
      omega
    rw [h1, h2]
    show m.traverseFrom none fuel = some ([] : List (List (K × V))).flatten
    cases fuel <;> rfl
  | succ dn ih =>
    intro n hn fuel hfuel
    have hncss : n < css.length := by omega
    have hnbk : n < m.buckets.length := by
      rw [hw.bkLen, ← hw.cssLen]
      omega
    have hdropCss : css.drop n = css.getD n [] :: css.drop (n+1) := by
      rw [List.drop_eq_getElem_cons hncss]
      congr 1
      rw [List.getD_eq_getElem?_getD, List.getElem?_eq_getElem hncss]
      rfl
    have hdropBk : m.buckets.drop n = m.buckets.getD n none :: m.buckets.drop (n+1) := by
      rw [List.drop_eq_getElem_cons hnbk]
      congr 1
      rw [List.getD_eq_getElem?_getD, List.getElem?_eq_getElem hnbk]
      rfl
    have hflatlen : ((css.drop n).flatten).length =
        (css.getD n []).length + ((css.drop (n+1)).flatten).length := by
      rw [hdropCss, List.flatten_cons, List.length_append]
    cases hbg : m.bget n with
    | none =>
      have hchain : css.getD n [] = [] := by
        have hc := hw.chainsOk n hncss
        rw [hbg] at hc
        cases hcs : css.getD n [] with
        | nil => rfl
        | cons e t =>
          rw [hcs] at hc
          exact absurd hc.1 (by simp)
      have hfl : firstLive (m.buckets.drop n) = firstLive (m.buckets.drop (n+1)) := by
        rw [hdropBk]
        show firstLive (m.bget n :: _) = _
        rw [hbg]
        rfl
      rw [hfl, hdropCss, hchain]
      simp only [List.map_cons, List.map_nil, List.flatten_cons, List.nil_append]
      refine ih (n+1) (by omega) fuel ?_
      rw [hchain] at hflatlen
      simp only [List.length_nil] at hflatlen
      omega
    | some c =>
      obtain ⟨nd0, rest, hchain, hg0, hrest⟩ := hw.chain_cons hncss hbg
      have hlc := congrArg List.length hchain
      have hfl : firstLive (m.buckets.drop n) = some c := by
        rw [hdropBk]
        show firstLive (m.bget n :: _) = _
        rw [hbg]
        rfl
      rw [hfl]
      have hchainOk : isChain m.heap (some c) ((c, nd0) :: rest) := by
        rw [← hchain, ← hbg]
        exact hw.chainsOk n hncss
      have hbkt : ∀ e ∈ (c, nd0) :: rest, m.bucketOf e.2.key = n := by
        intro e he
        refine hw.bCorrect n hncss e ?_
        rw [hchain]
        exact he
      have hlen1 : ((c, nd0) :: rest).length ≤ fuel := by
        simp only [List.length_cons] at hlc ⊢
        omega
      have hcont := ih (n+1) (by omega) (fuel - ((c, nd0) :: rest).length)
        (by simp only [List.length_cons] at hlc ⊢; omega)
      have hstep := traverseFrom_chain (n := n) hchainOk (by simp) hbkt hlen1 hcont
      rw [hstep, hdropCss, hchain]
      simp only [List.map_cons, List.flatten_cons]

end UnorderedMap


namespace UnorderedMap

variable {K V : Type} [DecidableEq K]

/-- Canonical iteration from `begin()` walks exactly the chains' contents, in
ascending bucket order, each chain in order. -/
lemma toListC_eq {m : UnorderedMap K V} {css} (hw : WFc m css) (hh : headInv m) :
    m.toListC = some ((css.flatten).map entryOf) := by
  have hlen : ((css.drop 0).flatten).length ≤ m.heap.length := by
    rw [List.drop_zero, hw.heapPerm.length_eq]
  have h2 := traverseFrom_buckets hw css.length 0 (by omega) m.heap.length hlen
  rw [List.drop_zero, List.drop_zero] at h2
  show m.traverseFrom m.head m.heap.length = _
  rw [hh, h2, List.map_flatten]

lemma localFrom_spec {h : Heap K V} :
    ∀ {l : List (Nat × HashNode K V)} {p fuel}, isChain h p l → l.length ≤ fuel →
      localFrom h p fuel = some (l.map entryOf) := by
  intro l
  induction l with
  | nil =>
    intro p fuel hc _
    rw [hc]
    cases fuel <;> rfl
  | cons e t ih =>
    intro p fuel hc hlen
    obtain ⟨hp, hg0, hrest⟩ := hc
    have hg : hget h e.1 = some e.2 := hg0
    subst hp
    match fuel, hlen with
    | fuel+1, hlen =>
      simp only [localFrom, hg,
        @ih e.2.next fuel hrest (by simp only [List.length_cons] at hlen; omega)]
      rfl

lemma bucketSizeLoop_spec {h : Heap K V} :
    ∀ {l : List (Nat × HashNode K V)} {p c fuel}, isChain h p l → l.length ≤ fuel →
      bucketSizeLoop h p c fuel = some (c + l.length) := by
  intro l
  induction l with
  | nil =>
    intro p c fuel hc _
    rw [hc]
    cases fuel <;> rfl
  | cons e t ih =>
    intro p c fuel hc hlen
    obtain ⟨hp, hg0, hrest⟩ := hc
    have hg : hget h e.1 = some e.2 := hg0
    subst hp
    match fuel, hlen with
    | fuel+1, hlen =>
      simp only [bucketSizeLoop, hg,
        @ih e.2.next (c + 1) fuel hrest
          (by simp only [List.length_cons] at hlen; omega)]
      congr 1
      simp only [List.length_cons]
      omega

lemma localList_eq {m : UnorderedMap K V} {css} (hw : WFc m css) {n : Nat}
    (hn : n < css.length) :
    m.localList n = some ((css.getD n []).map entryOf) :=
  localFrom_spec (hw.chainsOk n hn) (hw.chain_length_le hn)

lemma bucket_size_eq {m : UnorderedMap K V} {css} (hw : WFc m css) {n : Nat}
    (hn : n < css.length) :
    m.bucket_size n = some (css.getD n []).length := by
  have := bucketSizeLoop_spec (c := 0) (hw.chainsOk n hn) (hw.chain_length_le hn)
  simpa using this

lemma mapM_eq_some_of {α β : Type _} {f : α → Option β} {g : α → β} :
    ∀ {l : List α}, (∀ x ∈ l, f x = some (g x)) → l.mapM f = some (l.map g) := by
  intro l
  induction l with
  | nil => intro _; rfl
  | cons x t ih =>
    intro hall
    rw [List.mapM_cons, hall x (by simp), ih (fun y hy => hall y (List.mem_cons_of_mem _ hy))]
    rfl

lemma map_getD_range {α : Type _} (d : α) :
    ∀ l : List α, (List.range l.length).map (fun n => l.getD n d) = l := by
  intro l
  induction l with
  | nil => rfl
  | cons x t ih =>
    have hcomp : ((fun n => (x :: t).getD n d) ∘ Nat.succ) = fun n => t.getD n d := by
      funext n
      simp
    rw [List.length_cons, List.range_succ_eq_map, List.map_cons, List.map_map, hcomp, ih]
    simp

/-- Collecting every bucket's local iteration yields exactly the chain
entry lists. -/
lemma mapM_localList {m : UnorderedMap K V} {css} (hw : WFc m css) :
    (List.range m.bucket_count).mapM m.localList = some (css.map (List.map entryOf)) := by
  have h1 : ∀ n ∈ List.range m.bucket_count,
      m.localList n = some ((fun n => (css.getD n []).map entryOf) n) := by
    intro n hn
    rw [List.mem_range] at hn
    exact localList_eq hw (by rw [hw.cssLen]; exact hn)
  rw [mapM_eq_some_of h1]
  congr 1
  have h2 : (List.range m.bucket_count).map (fun n => (css.getD n []).map entryOf) =
      ((List.range css.length).map (fun n => css.getD n [])).map (List.map entryOf) := by
    rw [← hw.cssLen, List.map_map]
    rfl
  rw [h2, map_getD_range]

end UnorderedMap

/-! ### C4 and C8 -/

/-- C4: for every table reached by inserts, index-operator accesses, and
erases, iterating from `begin()` to `end()` completes and visits exactly
`size()` entries, each live key exactly once, in ascending bucket-index
order and within a bucket in chain order (the sequence is the concatenation
of the per-bucket local iterations).  Stability is intrinsic: `toListC` is
a function of the state, so re-iterating without mutation repeats the same
sequence. -/
theorem C4_canonical_iteration {K V : Type} [DecidableEq K] [Inhabited V]
    {m : UnorderedMap K V} (hr : UnorderedMap.Reach m) :
    ∃ l, m.toListC = some l ∧ l.length = m.size ∧ (l.map Prod.fst).Nodup ∧
      ∃ ls, (List.range m.bucket_count).mapM m.localList = some ls ∧ l = ls.flatten := by
  obtain ⟨⟨css, hw⟩, hh⟩ := UnorderedMap.reach_wf hr
  refine ⟨(css.flatten).map UnorderedMap.entryOf, UnorderedMap.toListC_eq hw hh, ?_, ?_, ?_⟩
  · rw [List.length_map, hw.sizeOk, hw.heapPerm.length_eq]
  · have hmm : ((css.flatten).map UnorderedMap.entryOf).map Prod.fst =
        (css.flatten).map (fun e => e.2.key) := by
      rw [List.map_map]
      rfl
    rw [hmm]
    exact hw.keysNodup
  · exact ⟨_, UnorderedMap.mapM_localList hw, List.map_flatten _ _⟩

/-- The table `{(0, 5), (3, 7)}` over 2 buckets (identity hash), reached by
two rvalue inserts. -/
def mEx2 : UnorderedMap Nat Nat :=
  { bucket_count := 2
    buckets := [some 0, some 1]
    head := some 0
    size := 2
    nextId := 2
    heap := [(1, { next := none, key := 3, val := 7 }),
             (0, { next := none, key := 0, val := 5 })]
    hashF := fun k => k }

theorem mEx2_run : mEx1.insert_move 3 7 = some (mEx2, 1, true) := rfl

/-- C4 witness: the canonical iteration property at the concrete two-entry
table `mEx2`. -/
theorem C4_canonical_iteration_witness :
    ∃ l, mEx2.toListC = some l ∧ l.length = mEx2.size ∧ (l.map Prod.fst).Nodup ∧
      ∃ ls, (List.range mEx2.bucket_count).mapM mEx2.localList = some ls ∧
        l = ls.flatten :=
  C4_canonical_iteration
    (UnorderedMap.Reach.insM
      (UnorderedMap.Reach.insM (UnorderedMap.Reach.mk (fun k => k) 1) mEx1_run) mEx2_run)

/-- C8: for every reachable table and every bucket index below the bucket
count, local iteration from `begin(n)` to `end(n)` visits exactly the
entries of bucket `n`'s chain, in chain order (most recently inserted
first, the chain's own link order), never leaving the bucket (every visited
node's key hashes to `n`), and `bucket_size(n)` counts exactly those
nodes. -/
theorem C8_local_iteration {K V : Type} [DecidableEq K] [Inhabited V]
    {m : UnorderedMap K V} (hr : UnorderedMap.Reach m) {n : Nat}
    (hn : n < m.bucket_count) :
    ∃ cs, UnorderedMap.isChain m.heap (m.bget n) cs ∧
      m.localList n = some (cs.map UnorderedMap.entryOf) ∧
      m.bucket_size n = some cs.length ∧
      ∀ e ∈ cs, m.bucketOf e.2.key = n := by
  obtain ⟨⟨css, hw⟩, _⟩ := UnorderedMap.reach_wf hr
  have hn2 : n < css.length := by
    rw [hw.cssLen]
    exact hn
  exact ⟨css.getD n [], hw.chainsOk n hn2, UnorderedMap.localList_eq hw hn2,
    UnorderedMap.bucket_size_eq hw hn2, fun e he => hw.bCorrect n hn2 e he⟩

/-- C8 witness: local iteration over bucket 1 of the concrete table
`mEx2`. -/
theorem C8_local_iteration_witness :
    ∃ cs, UnorderedMap.isChain mEx2.heap (mEx2.bget 1) cs ∧
      mEx2.localList 1 = some (cs.map UnorderedMap.entryOf) ∧
      mEx2.bucket_size 1 = some cs.length ∧
      ∀ e ∈ cs, mEx2.bucketOf e.2.key = 1 :=
  C8_local_iteration
    (UnorderedMap.Reach.insM
      (UnorderedMap.Reach.insM (UnorderedMap.Reach.mk (fun k => k) 1) mEx1_run) mEx2_run)
    (by decide)

/-! ### C6 and C7 -/

/-- C6: inserting `(k, v)` (either overload) when a live entry with key `k`
exists returns the state itself unchanged — same stored value, same size,
same chains — together with a pointer to the existing node bearing `k` and
the `inserted = false` flag; the offered value `v` is not applied. -/
theorem C6_insert_duplicate {K V : Type} [DecidableEq K] [Inhabited V]
    {m : UnorderedMap K V} (hr : UnorderedMap.Reach m) {k : K} {i : Nat}
    {nd : HashNode K V} (hlive : (i, nd) ∈ m.heap) (hkey : nd.key = k) (v : V) :
    ∃ x ndx, hget m.heap x = some ndx ∧ ndx.key = k ∧
      m.insert_copy k v = some (m, x, false) ∧
      m.insert_move k v = some (m, x, false) := by
  obtain ⟨⟨css, hw⟩, _⟩ := UnorderedMap.reach_wf hr
  obtain ⟨f, hfmem, hfk, hfind⟩ := UnorderedMap.findPtr_hit hw hlive hkey
  refine ⟨f.1, f.2, ?_, hfk, ?_, ?_⟩
  · exact UnorderedMap.isChain_mem_hget (hw.chainsOk _ (hw.bLt k)) hfmem
  · rw [UnorderedMap.insert_copy_eq_insert_move]
    exact UnorderedMap.insert_move_hit hfind v
  · exact UnorderedMap.insert_move_hit hfind v

/-- C6 witness: inserting the duplicate key 3 (with the different value 99)
into the concrete table `mEx2` changes nothing and reports not-inserted. -/
theorem C6_insert_duplicate_witness :
    ∃ x ndx, hget mEx2.heap x = some ndx ∧ ndx.key = 3 ∧
      mEx2.insert_copy 3 99 = some (mEx2, x, false) ∧
      mEx2.insert_move 3 99 = some (mEx2, x, false) :=
  @C6_insert_duplicate Nat Nat _ _ mEx2
    (UnorderedMap.Reach.insM
      (UnorderedMap.Reach.insM (UnorderedMap.Reach.mk (fun k => k) 1) mEx1_run) mEx2_run)
    3 1 { next := none, key := 3, val := 7 } (by decide) rfl 99

/-- C7: on every reachable table the index-operator completes (never
fails).  When the key is absent it allocates a node holding `(k, T{})`,
prepends it to the key's bucket, and bumps the size by one, after which
`find(k)` yields the default value; when a live entry with the key exists
it returns the table unchanged together with that entry's node. -/
theorem C7_index_operator {K V : Type} [DecidableEq K] [Inhabited V]
    {m : UnorderedMap K V} (hr : UnorderedMap.Reach m) (k : K) :
    (∃ r, m.indexOp k = some r) ∧
    ((∀ e ∈ m.heap, e.2.key ≠ k) → ∃ m2 i, m.indexOp k = some (m2, i) ∧
        m2.size = m.size + 1 ∧
        hget m2.heap i =
          some { next := m.bget (m.bucketOf k), key := k, val := default } ∧
        m2.mval k = some (default : V)) ∧
    (∀ i0 nd0, (i0, nd0) ∈ m.heap → nd0.key = k →
        ∃ x ndx, m.indexOp k = some (m, x) ∧
          hget m.heap x = some ndx ∧ ndx.key = k) := by
  obtain ⟨⟨css, hw⟩, hh⟩ := UnorderedMap.reach_wf hr
  have hbl : m.bucketOf k < css.length := hw.bLt k
  refine ⟨?_, ?_, ?_⟩
  · rw [UnorderedMap.indexOp_eq]
    have hfp := UnorderedMap.findPtr_eq hw k
    cases hfind : (css.getD (m.bucketOf k) []).find? (fun e => e.2.key == k) with
    | some f =>
      rw [hfind, Option.map_some'] at hfp
      rw [hfp]
      exact ⟨(m, f.1), rfl⟩
    | none =>
      rw [hfind] at hfp
      have habs := UnorderedMap.absent_of_chain_miss hw hfind
      obtain ⟨hd2, heq2, _, _⟩ :=
        UnorderedMap.insert_into_bucket_spec hw hh k default habs
      rw [hfp]
      exact ⟨_, heq2⟩
  · intro habs
    have hfp := UnorderedMap.findPtr_miss hw habs
    obtain ⟨hd2, heq2, hwf2, hh2⟩ :=
      UnorderedMap.insert_into_bucket_spec hw hh k default habs
    refine ⟨UnorderedMap.insResult m (m.bucketOf k) k default hd2,
      m.nextId, ?_, rfl, ?_, ?_⟩
    · rw [UnorderedMap.indexOp_eq, hfp]
      exact heq2
    · exact UnorderedMap.hget_hput_self _ _ _
    · have hfp2 := UnorderedMap.findPtr_eq hwf2 k
      have hb2 : (UnorderedMap.insResult m (m.bucketOf k) k default hd2).bucketOf k =
          m.bucketOf k := rfl
      rw [hb2, UnorderedMap.getD_set_self _ hbl,
        List.find?_cons_of_pos _ (by simp)] at hfp2
      show UnorderedMap.mval _ k = some default
      simp only [UnorderedMap.mval, hfp2, Option.map_some']
      show (hget (hput m.heap m.nextId
        { next := m.bget (m.bucketOf k), key := k, val := default }) m.nextId).map
          (fun nd => nd.val) = some default
      rw [UnorderedMap.hget_hput_self]
      rfl
  · intro i0 nd0 hmem hkey
    obtain ⟨f, hfmem, hfk, hfind⟩ := UnorderedMap.findPtr_hit hw hmem hkey
    refine ⟨f.1, f.2, ?_,
      UnorderedMap.isChain_mem_hget (hw.chainsOk _ hbl) hfmem, hfk⟩
    rw [UnorderedMap.indexOp_eq, hfind]

/-- C7 witness: indexing the concrete table `mEx2` with the absent key 2
(and, through the same theorem, with its present keys). -/
theorem C7_index_operator_witness :
    (∃ r, mEx2.indexOp 2 = some r) ∧
    ((∀ e ∈ mEx2.heap, e.2.key ≠ 2) → ∃ m2 i, mEx2.indexOp 2 = some (m2, i) ∧
        m2.size = mEx2.size + 1 ∧
        hget m2.heap i =
          some { next := mEx2.bget (mEx2.bucketOf 2), key := 2, val := default } ∧
        m2.mval 2 = some (default : Nat)) ∧
    (∀ i0 nd0, (i0, nd0) ∈ mEx2.heap → nd0.key = 2 →
        ∃ x ndx, mEx2.indexOp 2 = some (mEx2, x) ∧
          hget mEx2.heap x = some ndx ∧ ndx.key = 2) :=
  C7_index_operator
    (UnorderedMap.Reach.insM
      (UnorderedMap.Reach.insM (UnorderedMap.Reach.mk (fun k => k) 1) mEx1_run) mEx2_run)
    2

/-! ### Copy constructor -/

namespace UnorderedMap

variable {K V : Type} [DecidableEq K]

lemma foldlM_option_inv {β : Type _} (f : β → Nat → Option β) (Q : Nat → β → Prop) :
    ∀ (count : Nat) (init : β), Q 0 init →
      (∀ n b, n < count → Q n b → ∃ b2, f b n = some b2 ∧ Q (n+1) b2) →
      ∃ b2, (List.range count).foldlM f init = some b2 ∧ Q count b2 := by
  intro count
  induction count with
  | zero =>
    intro init h0 _
    exact ⟨init, rfl, h0⟩
  | succ n ih =>
    intro init h0 hstep
    obtain ⟨b2, hb2, hq2⟩ := ih init h0 (fun j b hj hq => hstep j b (by omega) hq)
    obtain ⟨b3, hb3, hq3⟩ := hstep n b2 (by omega) hq2
    refine ⟨b3, ?_, hq3⟩
    rw [List.range_succ, List.foldlM_append, hb2]
    show List.foldlM f b2 [n] = some b3
    rw [List.foldlM_cons, hb3]
    rfl

lemma find?_map_entry (k : K) :
    ∀ l : List (Nat × HashNode K V),
      (l.map entryOf).find? (fun e => e.1 == k) =
        (l.find? (fun e => e.2.key == k)).map entryOf := by
  intro l
  induction l with
  | nil => rfl
  | cons e t ih =>
    by_cases hk : e.2.key = k
    · rw [List.map_cons, List.find?_cons_of_pos _ (by simp [entryOf, hk]),
        List.find?_cons_of_pos _ (by simp [hk]), Option.map_some']
    · rw [List.map_cons, List.find?_cons_of_neg _ (by simp [entryOf, hk]),
        List.find?_cons_of_neg _ (by simp [hk]), ih]

/-- `find(k)->second` as a function of the key's bucket chain, at the entry
level. -/
lemma mval_eq {m : UnorderedMap K V} {css} (hw : WFc m css) (k : K) :
    m.mval k = (((css.getD (m.bucketOf k) []).map entryOf).find?
        (fun e => e.1 == k)).map Prod.snd := by
  rw [find?_map_entry]
  simp only [mval, findPtr_eq hw k]
  cases hfind : (css.getD (m.bucketOf k) []).find? (fun e => e.2.key == k) with
  | none => rfl
  | some f =>
    have hmem : f ∈ css.getD (m.bucketOf k) [] := List.mem_of_find?_eq_some hfind
    have hg : hget m.heap f.1 = some f.2 :=
      isChain_mem_hget (hw.chainsOk _ (hw.bLt k)) hmem
    show (hget m.heap f.1).map (fun nd => nd.val) = _
    rw [hg]
    rfl

/-- With pairwise-distinct first components, searching a reversed
association list finds the same element. -/
lemma find?_reverse_key {W : Type} {l : List (K × W)} (hnd : (l.map Prod.fst).Nodup)
    (k : K) :
    l.reverse.find? (fun e => e.1 == k) = l.find? (fun e => e.1 == k) := by
  cases hf : l.find? (fun e => e.1 == k) with
  | none =>
    rw [List.find?_eq_none] at hf ⊢
    intro x hx
    exact hf x (List.mem_reverse.mp hx)
  | some f =>
    have hfm : f ∈ l := List.mem_of_find?_eq_some hf
    have hfk : f.1 = k := by
      have := List.find?_some hf
      simpa using this
    cases hr : l.reverse.find? (fun e => e.1 == k) with
    | none =>
      rw [List.find?_eq_none] at hr
      have := hr f (List.mem_reverse.mpr hfm)
      simp [hfk] at this
    | some g =>
      have hgm : g ∈ l := List.mem_reverse.mp (List.mem_of_find?_eq_some hr)
      have hgk : g.1 = k := by
        have := List.find?_some hr
        simpa using this
      have hgf : g = f := List.inj_on_of_nodup_map hnd hgm hfm (by rw [hgk, hfk])
      rw [hgf]

lemma getD_replicate {α : Type _} (a d : α) {n b : Nat} (hb : b < n) :
    (List.replicate n a).getD b d = a := by
  rw [List.getD_eq_getElem?_getD, List.getElem?_replicate, if_pos hb]
  rfl

lemma flatten_replicate_nil {α : Type _} (n : Nat) :
    (List.replicate n ([] : List α)).flatten = [] := by
  rw [List.flatten_eq_nil_iff]
  intro l hl
  exact List.eq_of_mem_replicate hl

/-- The pre-insertion state the copy constructor builds: the source's bucket
count and hash function, a zeroed bucket array, no nodes. -/
def copyInit (m : UnorderedMap K V) : UnorderedMap K V :=
  { bucket_count := m.bucket_count
    buckets := List.replicate m.bucket_count none
    head := none
    size := 0
    nextId := 0
    heap := []
    hashF := m.hashF }

lemma copyInit_wf (m : UnorderedMap K V) (hbc : 0 < m.bucket_count) :
    WFc (copyInit m) (List.replicate m.bucket_count []) ∧ headInv (copyInit m) := by
  constructor
  · refine ⟨hbc, by simp only [copyInit, List.length_replicate], by simp [copyInit], ?_, ?_, ?_, ?_, ?_, rfl, ?_⟩
    · intro b hb
      rw [List.length_replicate] at hb
      show isChain [] ((List.replicate m.bucket_count none).getD b none) _
      rw [getD_replicate _ _ hb, getD_replicate _ _ hb]
      exact rfl
    · show List.Perm ([] : Heap K V) _
      rw [flatten_replicate_nil]
    · rw [flatten_replicate_nil]
      exact List.nodup_nil
    · intro b hb e he
      rw [List.length_replicate] at hb
      rw [getD_replicate _ _ hb] at he
      exact absurd he (by simp)
    · rw [flatten_replicate_nil]
      exact List.nodup_nil
    · intro e he
      exact absurd he (by simp [copyInit])
  · show (none : Option Nat) = firstLive (List.replicate m.bucket_count none)
    symm
    rw [firstLive_eq_none_iff]
    intro x hx
    exact List.eq_of_mem_replicate hx

/-- Keys of distinct bucket chains of a well-formed table never collide. -/
lemma chains_key_disjoint {m : UnorderedMap K V} {css} (hw : WFc m css)
    {i j : Nat} (hi : i < css.length) (hj : j < css.length) (hij : i ≠ j)
    {x y : Nat × HashNode K V} (hx : x ∈ css.getD i []) (hy : y ∈ css.getD j []) :
    x.2.key ≠ y.2.key := by
  have hperm := (flatten_decomp hi).map (fun e => e.2.key)
  have hnd := (hperm.nodup_iff).mp hw.keysNodup
  rw [List.map_append] at hnd
  have hdisj := List.disjoint_of_nodup_append hnd
  intro hkk
  have hx2 : x.2.key ∈ (css.getD i []).map (fun e => e.2.key) :=
    List.mem_map_of_mem _ hx
  have hy2 : y.2.key ∈ ((css.set i ([] : List (Nat × HashNode K V))).flatten).map
      (fun e => e.2.key) := by
    refine List.mem_map_of_mem _ (List.mem_flatten.mpr
      ⟨(css.set i ([] : List (Nat × HashNode K V))).getD j [], ?_, ?_⟩)
    · exact getD_mem [] (by simpa using hj)
    · rw [getD_set_ne _ _ _ _ _ (Ne.symm hij)]
      exact hy
  rw [hkk] at hx2
  exact hdisj hx2 hy2

end UnorderedMap

namespace UnorderedMap

variable {K V : Type} [DecidableEq K]

/-- Effect of re-inserting one source chain, head-to-tail, into a
well-formed destination whose heap holds none of the chain's keys: the loop
completes, the chain's entries end up prepended — hence reversed — on the
destination bucket the (shared) hash assigns them, all other buckets keep
their chains, and the inserted keys are exactly added. -/
lemma copyChainLoop_spec {m : UnorderedMap K V} {src : Heap K V} {b : Nat} :
    ∀ (cs : List (Nat × HashNode K V)) (p : Option Nat) (fuel : Nat)
      (dst : UnorderedMap K V) (css2 : List (List (Nat × HashNode K V))),
      isChain src p cs → cs.length ≤ fuel → WFc dst css2 → headInv dst →
      dst.bucket_count = m.bucket_count → dst.hashF = m.hashF →
      (∀ e ∈ cs, m.bucketOf e.2.key = b) →
      (∀ e ∈ cs, ∀ d ∈ dst.heap, d.2.key ≠ e.2.key) →
      (cs.map (fun e => e.2.key)).Nodup →
      ∃ dst2 css2b, copyChainLoop src dst p fuel = some dst2 ∧
        WFc dst2 css2b ∧ headInv dst2 ∧
        dst2.bucket_count = m.bucket_count ∧ dst2.hashF = m.hashF ∧
        dst2.size = dst.size + cs.length ∧
        (css2b.getD b []).map entryOf =
          (cs.map entryOf).reverse ++ (css2.getD b []).map entryOf ∧
        (∀ b2, b2 ≠ b → (css2b.getD b2 []).map entryOf = (css2.getD b2 []).map entryOf) ∧
        (∀ d ∈ dst2.heap, (∃ d0 ∈ dst.heap, d0.2.key = d.2.key) ∨
          ∃ e ∈ cs, e.2.key = d.2.key) := by
  intro cs
  induction cs with
  | nil =>
    intro p fuel dst css2 hchain _ hw hh hbc hhf _ _ _
    have hp : p = none := hchain
    subst hp
    refine ⟨dst, css2, ?_, hw, hh, hbc, hhf, by simp, by simp, fun b2 _ => rfl, ?_⟩
    · cases fuel <;> rfl
    · intro d hd
      exact Or.inl ⟨d, hd, rfl⟩
  | cons e rest ih =>
    intro p fuel dst css2 hchain hfuel hw hh hbc hhf hbuck hfresh hnd
    obtain ⟨hp, hg0, hrest⟩ := hchain
    have hg : hget src e.1 = some e.2 := hg0
    subst hp
    simp only [List.map_cons, List.nodup_cons] at hnd
    match fuel, hfuel with
    | fuel+1, hfuel =>
    have habs : ∀ d ∈ dst.heap, d.2.key ≠ e.2.key :=
      fun d hd => hfresh e (by simp) d hd
    obtain ⟨hd2, heq, hw2, hh2⟩ := insert_move_miss hw hh e.2.val habs
    have hboe : dst.bucketOf e.2.key = b := by
      show range_hash (dst.hashF e.2.key) dst.bucket_count = b
      rw [hhf, hbc]
      exact hbuck e (by simp)
    rw [hboe] at heq hw2 hh2
    have hbl : b < css2.length := by
      have := hw.bLt e.2.key
      rwa [hboe] at this
    have hfresh2 : ∀ e2 ∈ rest, ∀ d ∈
        (insResult dst b e.2.key e.2.val hd2).heap, d.2.key ≠ e2.2.key := by
      intro e2 he2 d hd
      have hd3 : d ∈ (dst.nextId,
          ({ next := dst.bget b, key := e.2.key, val := e.2.val } : HashNode K V)) ::
          dst.heap := hd
      rcases List.mem_cons.mp hd3 with hd4 | hd4
      · rw [hd4]
        show e.2.key ≠ e2.2.key
        intro hkk
        exact hnd.1 (hkk ▸ List.mem_map_of_mem (fun e => e.2.key) he2)
      · exact hfresh e2 (List.mem_cons_of_mem _ he2) d hd4
    obtain ⟨dst2, css2b, heq2, hw3, hh3, hbc3, hhf3, hsz3, hchb3, hcho3, hkeys3⟩ :=
      ih e.2.next fuel (insResult dst b e.2.key e.2.val hd2)
        (css2.set b ((dst.nextId,
          ⟨dst.bget b, e.2.key, e.2.val⟩) :: css2.getD b []))
        hrest (by simp only [List.length_cons] at hfuel; omega) hw2 hh2 hbc hhf
        (fun e2 he2 => hbuck e2 (List.mem_cons_of_mem _ he2)) hfresh2 hnd.2
    refine ⟨dst2, css2b, ?_, hw3, hh3, hbc3, hhf3, ?_, ?_, ?_, ?_⟩
    · simp only [copyChainLoop, hg]
      rw [insert_copy_eq_insert_move, heq]
      exact heq2
    · rw [hsz3]
      show dst.size + 1 + rest.length = dst.size + (e :: rest).length
      simp only [List.length_cons]
      omega
    · rw [hchb3, getD_set_self _ hbl, List.map_cons, List.map_cons,
        List.reverse_cons, List.append_assoc, List.singleton_append]
      rfl
    · intro b2 hb2
      rw [hcho3 b2 hb2, getD_set_ne _ _ _ _ _ hb2]
    · intro d hd
      rcases hkeys3 d hd with ⟨d0, hd0, hkey0⟩ | ⟨e2, he2, hkey2⟩
      · have hd3 : d0 ∈ (dst.nextId,
            ({ next := dst.bget b, key := e.2.key, val := e.2.val } : HashNode K V)) ::
            dst.heap := hd0
        rcases List.mem_cons.mp hd3 with hd4 | hd4
        · refine Or.inr ⟨e, by simp, ?_⟩
          rw [← hkey0, hd4]
        · exact Or.inl ⟨d0, hd4, hkey0⟩
      · exact Or.inr ⟨e2, List.mem_cons_of_mem _ he2, hkey2⟩

end UnorderedMap

namespace UnorderedMap

variable {K V : Type} [DecidableEq K]

lemma getD_replicate_nil {α : Type _} (n b : Nat) :
    (List.replicate n ([] : List α)).getD b [] = [] := by
  rcases Nat.lt_or_ge b n with h | h
  · exact getD_replicate _ _ h
  · rw [List.getD_eq_getElem?_getD, List.getElem?_replicate, if_neg (by omega)]
    rfl

end UnorderedMap

/-- C10: on every reachable table the copy constructor completes and yields
a table with the same bucket count, the same size, and the same
key-to-value mapping (`find` agrees on every key); within each bucket the
copy's chain entries are the reverse of the source's, because the chains
are re-inserted head-to-tail and insertion prepends.  The source table is a
plain input of `copyCtor` and is not modified. -/
theorem C10_copy_constructor {K V : Type} [DecidableEq K] [Inhabited V]
    {m : UnorderedMap K V} (hr : UnorderedMap.Reach m) :
    ∃ m2, m.copyCtor = some m2 ∧
      m2.bucket_count = m.bucket_count ∧
      m2.size = m.size ∧
      (∀ k, m2.mval k = m.mval k) ∧
      ∀ n, n < m.bucket_count →
        ∃ l, m.localList n = some l ∧ m2.localList n = some l.reverse := by
  obtain ⟨⟨css, hw⟩, hh⟩ := UnorderedMap.reach_wf hr
  have hclen : css.length = m.bucket_count := hw.cssLen
  obtain ⟨hwI, hhI⟩ := UnorderedMap.copyInit_wf m hw.bcPos
  obtain ⟨dst2, hfold, hQf⟩ := UnorderedMap.foldlM_option_inv
    (fun dst b => UnorderedMap.copyChainLoop m.heap dst (m.bget b) m.heap.length)
    (fun j dst => ∃ css2, UnorderedMap.WFc dst css2 ∧ UnorderedMap.headInv dst ∧
      dst.bucket_count = m.bucket_count ∧ dst.hashF = m.hashF ∧
      dst.size = ((List.range j).map (fun b2 => (css.getD b2 []).length)).sum ∧
      (∀ b2, b2 < j → (css2.getD b2 []).map UnorderedMap.entryOf =
        ((css.getD b2 []).map UnorderedMap.entryOf).reverse) ∧
      (∀ b2, j ≤ b2 → (css2.getD b2 []).map UnorderedMap.entryOf = []) ∧
      (∀ d ∈ dst.heap, ∃ b2, b2 < j ∧
        d.2.key ∈ (css.getD b2 []).map (fun e => e.2.key)))
    m.bucket_count (UnorderedMap.copyInit m)
    (by
      refine ⟨List.replicate m.bucket_count [], hwI, hhI, rfl, rfl,
        by simp [UnorderedMap.copyInit], ?_, ?_, ?_⟩
      · intro b2 hb2
        exact absurd hb2 (by omega)
      · intro b2 _
        rw [UnorderedMap.getD_replicate_nil]
        rfl
      · intro d hd
        exact absurd hd (by simp [UnorderedMap.copyInit]))
    (by
      intro n dst hn hQ
      obtain ⟨css2, hwD, hhD, hbcD, hhfD, hszD, hrevD, hnilD, hkeyD⟩ := hQ
      have hncss : n < css.length := by rw [hclen]; exact hn
      have hchain := hw.chainsOk n hncss
      have hflen := hw.chain_length_le hncss
      have hndn : ((css.getD n []).map (fun e => e.2.key)).Nodup := by
        have hsub : List.Sublist ((css.getD n []).map (fun e => e.2.key))
            (css.flatten.map (fun e => e.2.key)) :=
          (List.sublist_flatten_of_mem (UnorderedMap.getD_mem [] hncss)).map _
        exact hw.keysNodup.sublist hsub
      have hfreshD : ∀ e ∈ css.getD n [], ∀ d ∈ dst.heap, d.2.key ≠ e.2.key := by
        intro e he d hd
        obtain ⟨b2, hb2n, hkmem⟩ := hkeyD d hd
        obtain ⟨y, hy, hyk⟩ := List.mem_map.mp hkmem
        have hb2c : b2 < css.length := by omega
        intro hde
        exact UnorderedMap.chains_key_disjoint hw hb2c hncss (Nat.ne_of_lt hb2n)
          hy he (hyk.trans hde)
      obtain ⟨dst2, css2b, heqL, hw3, hh3, hbc3, hhf3, hsz3, hchb3, hcho3, hkeys3⟩ :=
        UnorderedMap.copyChainLoop_spec (m := m) (b := n)
          (css.getD n []) (m.bget n) m.heap.length dst css2
          hchain hflen hwD hhD hbcD hhfD
          (fun e he => hw.bCorrect n hncss e he) hfreshD hndn
      refine ⟨dst2, heqL, css2b, hw3, hh3, hbc3, hhf3, ?_, ?_, ?_, ?_⟩
      · rw [hsz3, hszD, List.range_succ, List.map_append, List.sum_append]
        simp
      · intro b2 hb2
        rcases Nat.lt_or_ge b2 n with h | h
        · rw [hcho3 b2 (Nat.ne_of_lt h), hrevD b2 h]
        · have hb2n : b2 = n := by omega
          subst hb2n
          rw [hchb3, hnilD b2 (le_refl _), List.append_nil]
      · intro b2 hb2
        rw [hcho3 b2 (by omega), hnilD b2 (by omega)]
      · intro d hd
        rcases hkeys3 d hd with ⟨d0, hd0, hk0⟩ | ⟨e2, he2, hk2⟩
        · obtain ⟨b2, hb2, hmem⟩ := hkeyD d0 hd0
          exact ⟨b2, by omega, hk0 ▸ hmem⟩
        · exact ⟨n, by omega, hk2 ▸ List.mem_map_of_mem _ he2⟩)
  obtain ⟨css2b, hw3, hh3, hbc3, hhf3, hsz3, hrev3, hnil3, _⟩ := hQf
  refine ⟨dst2, hfold, hbc3, ?_, ?_, ?_⟩
  · have h1 : (List.range m.bucket_count).map (fun b2 => css.getD b2 []) = css := by
      rw [← hclen]
      exact UnorderedMap.map_getD_range [] css
    have h3 : (List.range m.bucket_count).map (fun b2 => (css.getD b2 []).length)
        = ((List.range m.bucket_count).map (fun b2 => css.getD b2 [])).map
          List.length := by
      rw [List.map_map]
      rfl
    rw [hsz3, h3, h1, ← List.length_flatten, ← hw.heapPerm.length_eq]
    exact hw.sizeOk.symm
  · intro k
    have hbk : m.bucketOf k < css.length := hw.bLt k
    have hbkc : m.bucketOf k < m.bucket_count := by rw [← hclen]; exact hbk
    have hbof : dst2.bucketOf k = m.bucketOf k := by
      show range_hash (dst2.hashF k) dst2.bucket_count = _
      rw [hhf3, hbc3]
      rfl
    have hndk : (((css.getD (m.bucketOf k) []).map UnorderedMap.entryOf).map
        Prod.fst).Nodup := by
      have hsub : List.Sublist ((css.getD (m.bucketOf k) []).map (fun e => e.2.key))
          (css.flatten.map (fun e => e.2.key)) :=
        (List.sublist_flatten_of_mem (UnorderedMap.getD_mem [] hbk)).map _
      have h4 := hw.keysNodup.sublist hsub
      have h5 : ((css.getD (m.bucketOf k) []).map UnorderedMap.entryOf).map Prod.fst
          = (css.getD (m.bucketOf k) []).map (fun e => e.2.key) := by
        rw [List.map_map]
        rfl
      rw [h5]
      exact h4
    rw [UnorderedMap.mval_eq hw3 k, UnorderedMap.mval_eq hw k, hbof,
      hrev3 (m.bucketOf k) hbkc, UnorderedMap.find?_reverse_key hndk k]
  · intro n hn
    have hncss : n < css.length := by rw [hclen]; exact hn
    have hncss2 : n < css2b.length := by rw [hw3.cssLen, hbc3]; exact hn
    refine ⟨(css.getD n []).map UnorderedMap.entryOf,
      UnorderedMap.localList_eq hw hncss, ?_⟩
    rw [UnorderedMap.localList_eq hw3 hncss2, hrev3 n hn]

/-- C10 witness: copying the concrete two-entry table `mEx2`. -/
theorem C10_copy_constructor_witness :
    ∃ m2, mEx2.copyCtor = some m2 ∧
      m2.bucket_count = mEx2.bucket_count ∧
      m2.size = mEx2.size ∧
      (∀ k, m2.mval k = mEx2.mval k) ∧
      ∀ n, n < mEx2.bucket_count →
        ∃ l, mEx2.localList n = some l ∧ m2.localList n = some l.reverse :=
  C10_copy_constructor
    (UnorderedMap.Reach.insM
      (UnorderedMap.Reach.insM (UnorderedMap.Reach.mk (fun k => k) 1) mEx1_run) mEx2_run)
